import Mathlib

/-!
# Verification of the implicit-to-explicit symbolic model pipeline

Shallow embedding of the core of this repository: the postprocessing
utilities of `src/symbolic_model_utils.py` (`drop_small_terms`,
`rescale_expression`, `print_and_store_models`) and the
tokenisation/equation-assembly utilities of `src/implicit_to_explicit.py`
(`parse_feature`, `consolidate_product`,
`generate_symbolic_equations_both_sides`, `generate_identity_matrix`).

Modelling choices, documented once here:

* A rational SymPy expression is represented by the pair of additive term
  lists that `as_numer_denom` followed by `expand` yields: each term is a
  scalar numeric coefficient together with a monomial (an exponent tuple
  over the ordered variable universe).  The pipeline under verification
  only ever handles numeric coefficients (they come from fitted numeric
  coefficient matrices), so a coefficient is either an exact rational
  (SymPy `Integer`/`Rational`) or a floating-point number (SymPy `Float`);
  the two kinds propagate differently through `as_numer_denom`
  (a `Rational p/q` splits into numerator `p` and denominator `q`, a
  `Float` stays whole in the numerator), which the model reproduces.
  Float arithmetic itself is modelled exactly over ℚ (no rounding): none
  of the verified claims depends on rounding error, only on where a
  numeric factor travels.
* SymPy's automatic (constructor-level) simplifications that the source
  relies on are modelled explicitly where they are observable:
  `Mul` flattening multiplies all numeric arguments into one coefficient
  and distributes a finite numeric coefficient (`Rational` or `Float`)
  over a lone `Add` factor; `Pow` with an integer exponent distributes
  over the arguments of a `Mul` base (`Mul._eval_power`), so `(c*A)**(-1)`
  becomes `c**(-1) * A**(-1)` at construction time; and the
  numerator/denominator split clears the exact-rational content of a sum
  (the lcm of the rational coefficient denominators) to the opposite
  side, while `Float` coefficients stay whole.
* `ComplexInfinity` (`sp.zoo`), the explicit undefined sentinel that
  `drop_small_terms` returns for an identically-zero cleaned denominator,
  is a distinguished constructor, not a rational pair.
-/

namespace SymbolicModel

/- Batteries marks the rational-number field operations `@[irreducible]`,
which blocks `decide`-style evaluation of the model at concrete inputs;
re-enable unfolding locally (the kernel itself is unaffected). -/
attribute [local semireducible] Rat.add Rat.mul Rat.inv Rat.sub

/-- A numeric scalar coefficient of one additive term: either an exact
rational (SymPy `Integer`/`Rational`) or a floating-point number (SymPy
`Float`), whose value is modelled exactly as a rational. -/
inductive Coeff where
  | rat (q : ℚ)
  | flt (q : ℚ)
  deriving DecidableEq, Repr

namespace Coeff

/-- The numeric value of the coefficient. -/
def val : Coeff → ℚ
  | rat q => q
  | flt q => q

/-- Model of SymPy `coeff.is_number` (line 98 of
`src/symbolic_model_utils.py`): every coefficient of this embedding is a
SymPy number, so the check always passes.  Symbolic (non-numeric)
coefficients do not occur in the numeric pipeline being verified. -/
def isNumber : Coeff → Bool := fun _ => true

/-- Multiplication; a `Float` operand contaminates the result, as in SymPy. -/
def mul : Coeff → Coeff → Coeff
  | rat a, rat b => rat (a * b)
  | a, b => flt (a.val * b.val)

/-- Addition (used when `expand` collects like monomials); a `Float` operand
contaminates the result, as in SymPy. -/
def add : Coeff → Coeff → Coeff
  | rat a, rat b => rat (a + b)
  | a, b => flt (a.val + b.val)

/-- Multiplicative inverse: the inverse of a `Rational` is exact, the inverse
of a `Float` is again a `Float`. -/
def inv : Coeff → Coeff
  | rat a => rat a⁻¹
  | flt a => flt a⁻¹

/-- Whether the coefficient is an exact rational (no floating-point). -/
def isRat : Coeff → Bool
  | rat _ => true
  | flt _ => false

end Coeff

/-- A monomial: the tuple of exponents over the ordered variable universe
(variable `i` is the symbol at position `i` of the name-sorted symbol
list). -/
abbrev Mon := List ℕ

/-- One additive term of an expanded polynomial: a numeric coefficient times
a monomial, the pair that `t.as_coeff_Mul()` splits a term into. -/
structure Term where
  coeff : Coeff
  mon : Mon
  deriving DecidableEq, Repr

/-- Multiply a term by a numeric factor (distribution of a numeric
coefficient over an `Add`, performed by `sp.expand`). -/
def Term.scale (k : Coeff) (t : Term) : Term := ⟨k.mul t.coeff, t.mon⟩

/-- A rational expression in the normal form `as_numer_denom` + `expand`
produces: the ordered additive terms of the numerator and of the
denominator.  The zero polynomial is the empty list. -/
structure RatExpr where
  num : List Term
  den : List Term
  deriving DecidableEq, Repr

/-- A pipeline value: a rational expression, or SymPy's `zoo`
(`ComplexInfinity`), the explicit undefined sentinel. -/
inductive SymExpr where
  | rat (e : RatExpr)
  | zoo
  deriving DecidableEq, Repr

/-- Model of `sp.expand` on a sum of terms, with explicit fuel to keep the
recursion structural (the fuel `l.length` of `expandTerms` is never
exhausted, since each step consumes at least the head term;
`expandTerms_cons` certifies the intended recurrence): collect the
coefficients of like monomials (the first occurrence keeps its place) and
drop monomials whose collected coefficient is zero, as `Add.flatten`
does. -/
def expandTermsAux : ℕ → List Term → List Term
  | 0, _ => []
  | _ + 1, [] => []
  | fuel + 1, t :: ts =>
    let c := (ts.filter (fun u => decide (u.mon = t.mon))).foldl
      (fun a u => a.add u.coeff) t.coeff
    let rest := ts.filter (fun u => !decide (u.mon = t.mon))
    if c.val = 0 then expandTermsAux fuel rest
    else ⟨c, t.mon⟩ :: expandTermsAux fuel rest

/-- `sp.expand` of a term list: collect like monomials, drop zero sums. -/
def expandTerms (l : List Term) : List Term := expandTermsAux l.length l

/-- The survival test of `filter_terms` (lines 95-99 of
`src/symbolic_model_utils.py`): keep a term iff its scalar coefficient is
numeric, nonzero, and of magnitude strictly greater than `tol`. -/
def keepTerm (tol : ℚ) (t : Term) : Bool :=
  t.coeff.isNumber && !decide (t.coeff.val = 0) && decide (|t.coeff.val| > tol)

/-- Model of `max(terms, key=lambda t: abs(t.as_coeff_Mul()[0].evalf()))`:
Python's `max` scans left to right and replaces the current best only on a
strictly greater key, so the first maximal element wins. -/
def maxTerm (t : Term) (ts : List Term) : Term :=
  ts.foldl (fun best u => if |u.coeff.val| > |best.coeff.val| then u else best) t

/-- One side (numerator or denominator) of `drop_small_terms`: filter the
ordered terms, and if the filter removed everything while the side was
nonempty, retain the single term of largest coefficient magnitude
(lines 102-109 of `src/symbolic_model_utils.py`). -/
def cleanSide (tol : ℚ) (l : List Term) : List Term :=
  let kept := l.filter (keepTerm tol)
  if kept.isEmpty then
    match l with
    | [] => []
    | t :: ts => [maxTerm t ts]
  else kept

/-- Split a single-term sum into its numeric coefficient and the rest, the
way SymPy's `Mul` exposes the numeric coefficient of `c*monomial`; a
multi-term sum (an `Add`) has coefficient `1`. -/
def extractCoeff : List Term → Coeff × List Term
  | [t] => (t.coeff, [⟨Coeff.rat 1, t.mon⟩])
  | l => (Coeff.rat 1, l)

/-- The pair `as_numer_denom` + `expand` extracts from
`Mul(k, numPart, denPart⁻¹)`: an exact rational factor `k = p/q` sends `p`
to the numerator and `q` to the denominator, while a `Float` factor stays
whole in the numerator (`Float.as_numer_denom` is `(self, 1)`); `expand`
then distributes the integer (or float) factor over the terms. -/
def fractionSplit (k : Coeff) (nP dP : List Term) : RatExpr :=
  match k with
  | .rat q =>
    ⟨expandTerms (nP.map (Term.scale (Coeff.rat (q.num : ℚ)))),
     expandTerms (dP.map (Term.scale (Coeff.rat (q.den : ℚ))))⟩
  | .flt v =>
    ⟨expandTerms (nP.map (Term.scale (Coeff.flt v))), expandTerms dP⟩

/-- Model of `expand_rational_expr(num_clean/den_clean)` (lines 112-119 of
`src/symbolic_model_utils.py`) as the `(numerator, denominator)` pair the
result presents: building `num_clean/den_clean` lets SymPy pull the numeric
coefficient out of a single-term numerator or denominator (`(c*A)**(-1)`
distributes at construction), after which `as_numer_denom` routes the
combined numeric factor as `fractionSplit` describes.  A zero numerator
collapses to the zero expression `0/1`. -/
def buildQuotient (numC denC : List Term) : RatExpr :=
  match numC with
  | [] => ⟨[], [⟨Coeff.rat 1, []⟩]⟩
  | _ =>
    let n := extractCoeff numC
    let d := extractCoeff denC
    fractionSplit (n.1.mul d.1.inv) n.2 d.2

/-- Model of `drop_small_terms` (lines 55-119 of
`src/symbolic_model_utils.py`).  On `zoo` the function is the identity:
`zoo.as_numer_denom()` is `(zoo, 1)`, `zoo` itself survives the filter (it
is a number, nonzero, of infinite magnitude) and `zoo/1` rebuilds `zoo`.
On a rational pair: expand both sides, filter each side's ordered terms,
fall back to the largest-magnitude original term on a side the filter
emptied, return `zoo` if the cleaned denominator is identically zero, and
otherwise return the expanded quotient of the cleaned sides. -/
def drop_small_terms (e : SymExpr) (tol : ℚ) : SymExpr :=
  match e with
  | .zoo => .zoo
  | .rat p =>
    let num := expandTerms p.num
    let den := expandTerms p.den
    let numC := cleanSide tol num
    let denC := cleanSide tol den
    if denC.isEmpty then .zoo else .rat (buildQuotient numC denC)

/-! ## Rescaling (`rescale_expression`, lines 126-226 of
`src/symbolic_model_utils.py`) -/

/-- Model of `D.is_number` for an expanded denominator: an expression is a
number iff it has no free symbols, i.e. every term's exponent tuple is all
zeros (the zero polynomial, the empty list, is a number too). -/
def isNumberTerms (l : List Term) : Bool :=
  l.all (fun t => t.mon.all (fun e => decide (e = 0)))

/-- Model of `tuple(sorted(D.free_symbols, key=lambda s: s.name))`: the
variables occurring in the denominator with a nonzero exponent, in
ascending order of the name-sorted variable universe. -/
def defaultGens (l : List Term) : List ℕ :=
  let len := (l.map (fun t => t.mon.length)).foldr max 0
  (List.range len).filter (fun v => l.any (fun t => !decide (t.mon.getD v 0 = 0)))

/-- The exponent tuple of a monomial over the generator tuple `gens`, as
`sp.Poly(D, *gens)` records it. -/
def project (gens : List ℕ) (m : Mon) : List ℕ :=
  gens.map (fun v => m.getD v 0)

/-- Whether a term's monomial is supported entirely on `gens` (otherwise the
off-generator symbols end up inside the polynomial coefficient, which is
then not a number). -/
def onGens (gens : List ℕ) (m : Mon) : Bool :=
  (List.range m.length).all (fun v => decide (m.getD v 0 = 0) || decide (v ∈ gens))

/-- Model of `poly.monoms()`: the distinct exponent tuples of the
denominator's terms over `gens`. -/
def polyMonoms (den : List Term) (gens : List ℕ) : List (List ℕ) :=
  (den.map (fun t => project gens t.mon)).dedup

/-- Model of `poly.coeff_monomial`: the coefficient of the exponent tuple
`pm` in `sp.Poly(D, *gens)`.  `none` stands for a symbolic (non-numeric)
coefficient, which arises when a contributing term involves a symbol
outside `gens`; an absent monomial has coefficient `0`, as in SymPy. -/
def polyCoeff (den : List Term) (gens : List ℕ) (pm : List ℕ) : Option Coeff :=
  let matching := den.filter (fun t => decide (project gens t.mon = pm))
  if matching.all (fun t => onGens gens t.mon) then
    some (matching.foldl (fun a t => a.add t.coeff) (Coeff.rat 0))
  else none

/-- The coefficient guard of lines 175-180 and 202-207 of
`src/symbolic_model_utils.py`: numeric, no `nan` (impossible over exact
rationals), nonzero, magnitude strictly above the fixed floor `1e-12`. -/
def coeffOk (c : Coeff) : Bool :=
  c.isNumber && !decide (c.val = 0) && decide (|c.val| > 1 / 10 ^ 12)

/-- Python's ascending comparison of exponent tuples (lexicographic, a
strict prefix is smaller). -/
def lexLt : List ℕ → List ℕ → Bool
  | [], [] => false
  | [], _ :: _ => true
  | _ :: _, [] => false
  | a :: as, b :: bs =>
    if a < b then true else if b < a then false else lexLt as bs

/-- The better of two candidate leading monomials: larger total degree wins,
a tie goes to the lexicographically smallest tuple.  Folding this over
`poly.monoms()` computes `sorted([m for m with maximal total degree])[0]`
of lines 197-199 of `src/symbolic_model_utils.py`. -/
def betterLead (a b : List ℕ) : List ℕ :=
  if a.sum < b.sum then b
  else if b.sum < a.sum then a
  else if lexLt b a then b else a

/-- The leading monomial: maximum total degree, ties broken by the
lexicographically smallest exponent tuple. -/
def leadMonomial (m0 : Mon) (ms : List Mon) : Mon :=
  ms.foldl betterLead m0

/-- The lcm of the denominators of the exact-rational coefficients of a
term list: the numerator/denominator split clears exactly this rational
content from a sum (`(y + 1/2).as_numer_denom() == (2*y + 1, 2)`), while
a `Float` coefficient stays whole in the numerator
(`Float.as_numer_denom()` is `(self, 1)`) and contributes `1`. -/
def ratDenLcm (l : List Term) : ℕ :=
  l.foldl (fun acc t => match t.coeff with
    | Coeff.rat q => Nat.lcm acc q.den
    | Coeff.flt _ => acc) 1

/-- Model of the final step `expand_rational_expr((N/scaling_coeff)/
(D/scaling_coeff))` (lines 225-226 of `src/symbolic_model_utils.py`) as
SymPy evaluates it:

* `N/scaling_coeff` and `D/scaling_coeff` distribute the numeric factor
  `c⁻¹` over each side termwise (`Mul` flattening distributes a finite
  `Number` coefficient — `Rational` or `Float` alike — over a lone `Add`,
  and multiplies it directly into a single term);
* splitting the quotient back into a numerator/denominator pair clears
  the exact-rational content of each side: a side is multiplied by the
  lcm of the denominators of its exact-rational coefficients, the cleared
  integer reappearing as a factor of the opposite side, so both sides end
  up multiplied by `L_N * L_D` (`Float` coefficients stay whole in the
  numerator and contribute `1` to the lcms);
* `expand` normalises both resulting term lists.

For an exact-rational scaling coefficient whose division leaves
fractional coefficients behind, the returned sides are therefore
re-scaled by the integer `L_N * L_D` and the chosen monomial's
denominator coefficient becomes `L_N * L_D` rather than `1`; for a
`Float` scaling coefficient every divided coefficient is a `Float`, both
lcms are `1`, and the sides stay exactly `N/c` and `D/c`, leaving the
chosen monomial with coefficient `c/c`, numerically exactly `1`. -/
def rescaleBuild (N D : List Term) (c : Coeff) : RatExpr :=
  let N1 := N.map (Term.scale c.inv)
  let D1 := D.map (Term.scale c.inv)
  let L : Coeff := Coeff.rat ((ratDenLcm N1 * ratDenLcm D1 : ℕ) : ℚ)
  ⟨expandTerms (N1.map (Term.scale L)), expandTerms (D1.map (Term.scale L))⟩

/-- The target branch of lines 172-187 of `src/symbolic_model_utils.py`:
the user target's coefficient when the guard passes, `none` when the
target is absent, its coefficient is not a number, or the guard fails
(those cases fall back to the leading term). -/
def targetCoeff (D : List Term) (gens : List ℕ) (target : Option Mon) :
    Option Coeff :=
  match target with
  | none => none
  | some tm =>
    match polyCoeff D gens tm with
    | none => none
    | some c => if coeffOk c then some c else none

/-- Model of `rescale_expression` (lines 126-226 of
`src/symbolic_model_utils.py`), with the default generator inference;
`target` is the optional user-supplied monomial (as an exponent tuple over
the generators) and `gens0` the optional explicit generator tuple.
`sp.Poly` construction always succeeds over this polynomial term model, so
the `except` path (return the expression unchanged) has no inhabitant
here; a symbolic target coefficient (`polyCoeff` = `none`) fails the
`is_number` guard and falls back to the leading term, exactly as lines
175-187 do. -/
def rescale_expression (e : RatExpr) (target : Option Mon)
    (gens0 : Option (List ℕ)) : RatExpr :=
  let N := e.num
  let D := e.den
  if isNumberTerms D then e
  else
    let gens := gens0.getD (defaultGens D)
    match targetCoeff D gens target with
    | some c => rescaleBuild N D c
    | none =>
      match polyMonoms D gens with
      | [] => e
      | m :: ms =>
        let lead := leadMonomial m ms
        match polyCoeff D gens lead with
        | none => e
        | some c => if coeffOk c then rescaleBuild N D c else e

/-- The scaling coefficient `rescale_expression` ends up dividing by: the
target's when its guard passes, else the leading monomial's when its guard
passes, else `none` — the abort paths of lines 189-220 ("no usable
coefficient exists"). -/
def scalingCoeff (e : RatExpr) (target : Option Mon)
    (gens0 : Option (List ℕ)) : Option Coeff :=
  let gens := gens0.getD (defaultGens e.den)
  match targetCoeff e.den gens target with
  | some c => some c
  | none =>
    match polyMonoms e.den gens with
    | [] => none
    | m :: ms =>
      match polyCoeff e.den gens (leadMonomial m ms) with
      | none => none
      | some c => if coeffOk c then some c else none

/-- The monomial `rescale_expression` chooses as its scaling reference: the
supplied target when its coefficient passes the guard, otherwise the
monomial of maximum total degree with the lexicographically smallest
exponent tuple; `none` when nothing is chosen. -/
def chosenMonomial (e : RatExpr) (target : Option Mon)
    (gens0 : Option (List ℕ)) : Option Mon :=
  if isNumberTerms e.den then none
  else
    let gens := gens0.getD (defaultGens e.den)
    if (targetCoeff e.den gens target).isSome then target
    else
      match polyMonoms e.den gens with
      | [] => none
      | m :: ms => some (leadMonomial m ms)

/-! ## Orchestrator (`print_and_store_models`, lines 273-416 of
`src/symbolic_model_utils.py`)

The algebraic solver `sp.solve` is external to the core: a row of
`eq_list` is represented by the list of solutions the solver returns for
it (`sols`), each solution already in numerator/denominator pair form.
The LaTeX/CSV sinks are write-only output and are not modelled; the four
stage dictionaries are association lists in insertion order. -/

/-- The mutable state of the orchestration loop: the four stage stores and
the two counters. -/
structure ModelState where
  raw : List (ℕ × RatExpr)
  rescaled : List (ℕ × RatExpr)
  cleaned : List (ℕ × SymExpr)
  final : List (ℕ × SymExpr)
  failed : ℕ
  successful : ℕ
  deriving DecidableEq, Repr

/-- The state before the loop (lines 322-331). -/
def initState : ModelState := ⟨[], [], [], [], 0, 0⟩

/-- Model of `sp.together(sp.expand(raw))` on a pair: expansion of both
sides (the pair is already a single quotient). -/
def togetherExpand (p : RatExpr) : RatExpr :=
  ⟨expandTerms p.num, expandTerms p.den⟩

/-- Model of the zero test applied to `sp.fraction(...)[0]`: the numerator
of a rational pair is zero iff its term list is empty; `zoo` has
`is_zero = False`. -/
def numIsZero : SymExpr → Bool
  | .rat p => p.num.isEmpty
  | .zoo => false

/-- Model of `expand_rational_expr(cleaned.evalf(sig_digits))`:
significant-digit rounding is a presentation-only float transform and is
the identity over the exact rational coefficient model; the claims being
verified concern only which rows reach this stage, not the rounded
values. -/
def finalRound (e : SymExpr) : SymExpr := e

/-- The body of the loop of lines 338-400 for one equation row: `sols` is
what `sp.solve` returned for the row.  Exactly one of the four exits is
taken: no solution, zero numerator, all numerator terms dropped, or
success. -/
def processRow (target : Option Mon) (gens : Option (List ℕ)) (tol : ℚ)
    (st : ModelState) (i : ℕ) (sols : List RatExpr) : ModelState :=
  match sols with
  | [] => { st with failed := st.failed + 1 }
  | raw :: _ =>
    let rawExpanded := togetherExpand raw
    let st1 := { st with raw := st.raw ++ [(i, rawExpanded)] }
    if rawExpanded.num.isEmpty then { st1 with failed := st1.failed + 1 }
    else
      let rescaled := rescale_expression rawExpanded target gens
      let st2 := { st1 with rescaled := st1.rescaled ++ [(i, rescaled)] }
      let cleaned := drop_small_terms (.rat rescaled) tol
      if numIsZero cleaned then { st2 with failed := st2.failed + 1 }
      else
        { st2 with
          cleaned := st2.cleaned ++ [(i, cleaned)]
          final := st2.final ++ [(i, finalRound cleaned)]
          successful := st2.successful + 1 }

/-- The loop over the equation rows, indexed from `i`. -/
def runRows (target : Option Mon) (gens : Option (List ℕ)) (tol : ℚ) :
    ℕ → ModelState → List (List RatExpr) → ModelState
  | _, st, [] => st
  | i, st, r :: rs =>
    runRows target gens tol (i + 1) (processRow target gens tol st i r) rs

/-- Model of `print_and_store_models` (lines 273-416 of
`src/symbolic_model_utils.py`): run the per-row pipeline over every
equation row and return the accumulated stores and counters. -/
def print_and_store_models (target : Option Mon) (gens : Option (List ℕ))
    (tol : ℚ) (eq_list : List (List RatExpr)) : ModelState :=
  runRows target gens tol 0 initState eq_list

/-- The key set (in insertion order) of a stage store. -/
def keysOf {α : Type} (l : List (ℕ × α)) : List ℕ := l.map Prod.fst

/-! ## Tokenizer (`parse_feature`, lines 24-71 of
`src/implicit_to_explicit.py`)

The two regular expressions of the source, `([a-zA-Z]\d*)(_dot|_t)` (via
`re.finditer`, leftmost non-overlapping matches) and `[a-zA-Z]\d*` (via
`re.findall`), are implemented directly over character lists.  Greedy
`\d*` never needs to backtrack here because a digit cannot begin the
suffix alternatives. -/

def isLetterCh (c : Char) : Bool :=
  (decide ('a' ≤ c) && decide (c ≤ 'z')) || (decide ('A' ≤ c) && decide (c ≤ 'Z'))

def isDigitCh (c : Char) : Bool :=
  decide ('0' ≤ c) && decide (c ≤ '9')

/-- Match the suffix alternation `(_dot|_t)` at the head of the input: the
alternative `_dot` is tried before `_t`, as in the source pattern. -/
def suffixAt (l : List Char) : Option (List Char × List Char) :=
  if l.take 4 = ['_', 'd', 'o', 't'] then some (['_', 'd', 'o', 't'], l.drop 4)
  else if l.take 2 = ['_', 't'] then some (['_', 't'], l.drop 2)
  else none

/-- Match `[a-zA-Z]\d*(_dot|_t)` at the head of the input: on success,
the matched token (variable glued to its derivative suffix) and the
remaining input.  Greedy `\d*` needs no backtracking because `_` is not a
digit. -/
def derivAt : List Char → Option (List Char × List Char)
  | [] => none
  | c :: rest =>
    if isLetterCh c then
      match suffixAt (rest.dropWhile isDigitCh) with
      | some (sfx, r2) => some (c :: rest.takeWhile isDigitCh ++ sfx, r2)
      | none => none
    else none

/-- The leftmost match of the derivative pattern: `some (before, token,
after)` splits the input around the first match, scanning start positions
left to right as `re.finditer` does. -/
def scanDeriv : List Char → Option (List Char × List Char × List Char)
  | [] => none
  | c :: cs =>
    match derivAt (c :: cs) with
    | some (tok, rest) => some ([], tok, rest)
    | none =>
      match scanDeriv cs with
      | some (b, tok, rest) => some (c :: b, tok, rest)
      | none => none

theorem dropWhile_length_le {α : Type} (p : α → Bool) :
    ∀ l : List α, (l.dropWhile p).length ≤ l.length
  | [] => le_refl _
  | a :: l => by
    rw [List.dropWhile]
    cases p a
    · simp
    · simpa using Nat.le_succ_of_le (dropWhile_length_le p l)

/-- Model of `re.findall` with the plain-variable pattern `[a-zA-Z]\d*`,
with explicit fuel to keep the recursion structural (fuel `l.length` is
never exhausted; `plainTokens_cons` certifies the intended recurrence):
each letter starts a token that greedily absorbs the following digits; any
other character is skipped. -/
def plainTokensAux : ℕ → List Char → List (List Char)
  | 0, _ => []
  | _ + 1, [] => []
  | fuel + 1, c :: cs =>
    if isLetterCh c then
      (c :: cs.takeWhile isDigitCh) :: plainTokensAux fuel (cs.dropWhile isDigitCh)
    else
      plainTokensAux fuel cs

/-- `re.findall` of the plain-variable pattern over a segment. -/
def plainTokens (s : List Char) : List (List Char) := plainTokensAux s.length s

theorem suffixAt_split {l sfx r : List Char} (h : suffixAt l = some (sfx, r)) :
    l = sfx ++ r ∧ 2 ≤ sfx.length := by
  unfold suffixAt at h
  split at h
  · rename_i h4
    simp only [Option.some.injEq, Prod.mk.injEq] at h
    obtain ⟨h1, h2⟩ := h
    subst h1 h2
    exact ⟨by rw [← h4]; exact (List.take_append_drop 4 l).symm, by simp⟩
  · split at h
    · rename_i h2
      simp only [Option.some.injEq, Prod.mk.injEq] at h
      obtain ⟨ha, hb⟩ := h
      subst ha hb
      exact ⟨by rw [← h2]; exact (List.take_append_drop 2 l).symm, by simp⟩
    · cases h

theorem derivAt_split {l t r : List Char} (h : derivAt l = some (t, r)) :
    l = t ++ r ∧ 3 ≤ t.length := by
  match l with
  | [] => simp [derivAt] at h
  | c :: rest =>
    rw [derivAt] at h
    by_cases hc : isLetterCh c
    · rw [if_pos hc] at h
      match hs : suffixAt (rest.dropWhile isDigitCh) with
      | none => rw [hs] at h; cases h
      | some (sfx, r2) =>
        rw [hs] at h
        simp only [Option.some.injEq, Prod.mk.injEq] at h
        obtain ⟨ht, hr⟩ := h
        subst ht hr
        obtain ⟨hsplit, hlen⟩ := suffixAt_split hs
        constructor
        · have hw : rest.takeWhile isDigitCh ++ rest.dropWhile isDigitCh = rest :=
            List.takeWhile_append_dropWhile isDigitCh rest
          calc c :: rest = c :: (rest.takeWhile isDigitCh ++ rest.dropWhile isDigitCh) := by
                rw [hw]
            _ = c :: (rest.takeWhile isDigitCh ++ (sfx ++ r2)) := by rw [← hsplit]
            _ = (c :: rest.takeWhile isDigitCh ++ sfx) ++ r2 := by simp
        · simp only [List.length_cons, List.length_append]
          omega
    · rw [if_neg hc] at h; cases h

/-- On a successful leftmost match the input splits as
`before ++ token ++ after`, and the token is nonempty. -/
theorem scanDeriv_split {s b t r : List Char}
    (h : scanDeriv s = some (b, t, r)) : s = b ++ t ++ r ∧ 3 ≤ t.length := by
  induction s generalizing b t r with
  | nil => simp [scanDeriv] at h
  | cons c cs ih =>
    rw [scanDeriv] at h
    match hd : derivAt (c :: cs) with
    | some (tok, rest) =>
      rw [hd] at h
      simp only [Option.some.injEq, Prod.mk.injEq] at h
      obtain ⟨hb, ht, hr⟩ := h
      subst hb ht hr
      obtain ⟨hsplit, hlen⟩ := derivAt_split hd
      exact ⟨by simpa using hsplit, hlen⟩
    | none =>
      rw [hd] at h
      match hs : scanDeriv cs with
      | some (b1, t1, r1) =>
        rw [hs] at h
        simp only [Option.some.injEq, Prod.mk.injEq] at h
        obtain ⟨hb, ht, hr⟩ := h
        subst hb ht hr
        obtain ⟨hsplit, hlen⟩ := ih hs
        refine ⟨?_, hlen⟩
        simp only [List.cons_append]
        rw [hsplit]
      | none => rw [hs] at h; cases h

/-- The match loop of `parse_feature` (lines 50-68 of
`src/implicit_to_explicit.py`), with explicit fuel to keep the recursion
structural (fuel `s.length` is never exhausted because every match
consumes at least three characters; `parseLoop_eq` certifies the intended
recurrence): for each leftmost derivative match, emit the plain tokens of
the unmatched text before it, then the derivative token, and continue
after the match; leftover text at the end is scanned for plain tokens. -/
def parseLoopAux : ℕ → List Char → List (List Char)
  | 0, s => plainTokens s
  | fuel + 1, s =>
    match scanDeriv s with
    | none => plainTokens s
    | some (b, tok, rest) => plainTokens b ++ tok :: parseLoopAux fuel rest

/-- The match loop of `parse_feature` over a whole feature string. -/
def parseLoop (s : List Char) : List (List Char) := parseLoopAux s.length s

/-- Model of `parse_feature` (lines 24-71 of `src/implicit_to_explicit.py`):
if the string has no derivative-suffix match anywhere, tokenize it with
the plain-variable pattern; otherwise run the match loop. -/
def parse_feature (s : String) : List String :=
  match scanDeriv s.toList with
  | none => (plainTokens s.toList).map List.asString
  | some _ => (parseLoop s.toList).map List.asString

/-! ## Product consolidation and equation assembly
(`consolidate_product`, `generate_symbolic_equations_both_sides`,
`generate_identity_matrix`; lines 118-217 of
`src/implicit_to_explicit.py`)

A symbolic expression built from the token symbols is embedded by its
value under an arbitrary rational assignment of the symbols; two
expressions are algebraically equal exactly when their value functions
agree. -/

/-- The multiplicity-count dictionary of `consolidate_product` (lines
134-140 of `src/implicit_to_explicit.py`): distinct tokens in first-seen
order, each with its number of occurrences. -/
def token_counts (toks : List String) : List (String × ℕ) :=
  toks.foldl
    (fun acc tok =>
      if acc.any (fun p => decide (p.1 = tok)) then
        acc.map (fun p => if p.1 = tok then (p.1, p.2 + 1) else p)
      else acc ++ [(tok, 1)])
    []

/-- Value of `consolidate_product(tokens, token_symbols)` under the symbol
assignment `v`: the product over the count dictionary of
`v(token) ^ multiplicity` (the unevaluated `sp.Mul` of `symbol ** count`
factors). -/
def consolidate_product (toks : List String) (v : String → ℚ) : ℚ :=
  ((token_counts toks).map (fun p => v p.1 ^ p.2)).prod

/-- An n×m numeric matrix: dimensions plus an entry table. -/
structure MatQ where
  rows : ℕ
  cols : ℕ
  entry : ℕ → ℕ → ℚ

/-- `M[i, j]` with the bounds check of SymPy matrix indexing: an
out-of-range index raises `IndexError`, modelled as `none`. -/
def MatQ.get (M : MatQ) (i j : ℕ) : Option ℚ :=
  if i < M.rows ∧ j < M.cols then some (M.entry i j) else none

/-- A symbolic equation `lhs − rhs = 0`, embedded as the value of
`lhs − rhs` under an assignment of the token symbols. -/
abbrev Eqn := (String → ℚ) → ℚ

/-- The monomial value of the `j`-th feature (its parsed token tuple fed to
`consolidate_product`). -/
def featMon (features : List String) (j : ℕ) (v : String → ℚ) : ℚ :=
  consolidate_product (parse_feature (features.getD j default)) v

/-- One side of row `i`:
`sum(M[i, j] * consolidate_product(fmap[feature_names[j]], token_symbols)
for j in range(n))`; the first out-of-range access aborts the sum. -/
def rowSide (features : List String) (M : MatQ) (i : ℕ) : Option Eqn :=
  ((List.range features.length).mapM (fun j => M.get i j)).map
    (fun cs => fun v =>
      ((cs.zip features).map
        (fun p => p.1 * consolidate_product (parse_feature p.2) v)).sum)

/-- Row `i` of the assembly: `Eq(lhs - rhs, 0)` embedded as the value of
`lhs - rhs`. -/
def eqnOfRow (features : List String) (L R : MatQ) (i : ℕ) : Option Eqn := do
  let lhs ← rowSide features L i
  let rhs ← rowSide features R i
  pure (fun v => lhs v - rhs v)

/-- Model of `generate_symbolic_equations_both_sides` (lines 154-207 of
`src/implicit_to_explicit.py`): one equation per row index `i <
len(feature_names)`; `none` models the `IndexError` escaping the function
when a matrix is smaller than the feature list (the loop runs over
`range(n)` with `n = len(feature_names)` regardless of the matrix
shapes). -/
def generate_symbolic_equations_both_sides (features : List String)
    (L R : MatQ) : Option (List Eqn) :=
  (List.range features.length).mapM (eqnOfRow features L R)

/-- Model of `generate_identity_matrix` (lines 212-217 of
`src/implicit_to_explicit.py`): `np.eye(len(features))`. -/
def generate_identity_matrix (features : List String) : MatQ :=
  ⟨features.length, features.length, fun i j => if i = j then 1 else 0⟩

/-- The row value the claim describes:
`Σ_j L[i,j]·monomial(feature_j) − Σ_j R[i,j]·monomial(feature_j)`. -/
def claimedRow (features : List String) (L R : ℕ → ℕ → ℚ) (i : ℕ)
    (v : String → ℚ) : ℚ :=
  ((List.range features.length).map (fun j => L i j * featMon features j v)).sum
    - ((List.range features.length).map (fun j => R i j * featMon features j v)).sum

/-- The ordered-occurrence property: the token lists appear in the source
character list left to right, each occupying its own contiguous span, with
arbitrary gaps between them. -/
def inOrder : List (List Char) → List Char → Prop
  | [], _ => True
  | t :: ts, s => ∃ g r, s = g ++ t ++ r ∧ inOrder ts r

/-- All monomials of a term list are distinct (the invariant of an expanded
sum). -/
def monsDistinct (l : List Term) : Prop :=
  l.Pairwise (fun a b => a.mon ≠ b.mon)

/-- The normal form `expand` leaves behind: distinct monomials, no zero
coefficients. -/
def Normal (l : List Term) : Prop :=
  monsDistinct l ∧ ∀ t ∈ l, t.coeff.val ≠ 0

/-- Every coefficient of the list is an exact rational. -/
def ratCoeffs (l : List Term) : Prop := ∀ t ∈ l, t.coeff.isRat = true

/-- Every coefficient of the expression is an exact rational (`zoo` counts,
having no coefficients). -/
def allRat : SymExpr → Prop
  | .zoo => True
  | .rat p => ratCoeffs p.num ∧ ratCoeffs p.den

/-! ## Theorems -/

theorem inOrder_prepend (g : List Char) {ts : List (List Char)} {s : List Char}
    (h : inOrder ts s) : inOrder ts (g ++ s) := by
  cases ts with
  | nil => trivial
  | cons t ts =>
    obtain ⟨g0, r, hsplit, hrest⟩ := h
    exact ⟨g ++ g0, r, by rw [hsplit]; simp, hrest⟩

theorem inOrder_append {A B : List (List Char)} {sA sB : List Char}
    (hA : inOrder A sA) (hB : inOrder B sB) : inOrder (A ++ B) (sA ++ sB) := by
  induction A generalizing sA with
  | nil => simpa using inOrder_prepend sA hB
  | cons t ts ih =>
    obtain ⟨g, r, hsplit, hrest⟩ := hA
    exact ⟨g, r ++ sB, by rw [hsplit]; simp, ih hrest⟩

theorem plainTokensAux_invar :
    ∀ (f1 : ℕ) (s : List Char) (f2 : ℕ), s.length ≤ f1 → s.length ≤ f2 →
      plainTokensAux f1 s = plainTokensAux f2 s := by
  intro f1
  induction f1 with
  | zero =>
    intro s f2 h1 _
    obtain rfl : s = [] := List.length_eq_zero.mp (Nat.le_zero.mp h1)
    cases f2 <;> rfl
  | succ f ih =>
    intro s f2 h1 h2
    cases s with
    | nil => cases f2 <;> rfl
    | cons c cs =>
      cases f2 with
      | zero => simp at h2
      | succ f2 =>
        simp only [plainTokensAux]
        simp only [List.length_cons, Nat.succ_le_succ_iff] at h1 h2
        by_cases hc : isLetterCh c
        · rw [if_pos hc, if_pos hc,
            ih (cs.dropWhile isDigitCh) f2
              (le_trans (dropWhile_length_le _ _) h1)
              (le_trans (dropWhile_length_le _ _) h2)]
        · rw [if_neg hc, if_neg hc, ih cs f2 h1 h2]

/-- The recurrence of the plain-token scan, as the source's `findall`
performs it: the fuel of `plainTokens` is never exhausted. -/
theorem plainTokens_cons (c : Char) (cs : List Char) :
    plainTokens (c :: cs) =
      if isLetterCh c then
        (c :: cs.takeWhile isDigitCh) :: plainTokens (cs.dropWhile isDigitCh)
      else plainTokens cs := by
  show plainTokensAux (cs.length + 1) (c :: cs) = _
  simp only [plainTokensAux]
  by_cases hc : isLetterCh c
  · rw [if_pos hc, if_pos hc,
      plainTokensAux_invar cs.length (cs.dropWhile isDigitCh) _
        (dropWhile_length_le _ _) le_rfl]
    rfl
  · rw [if_neg hc, if_neg hc]
    rfl

theorem plainTokensAux_inOrder :
    ∀ (fuel : ℕ) (s : List Char), inOrder (plainTokensAux fuel s) s
  | 0, _ => trivial
  | _ + 1, [] => trivial
  | fuel + 1, c :: cs => by
    simp only [plainTokensAux]
    by_cases hc : isLetterCh c
    · rw [if_pos hc]
      refine ⟨[], cs.dropWhile isDigitCh, ?_, plainTokensAux_inOrder fuel _⟩
      simp [List.takeWhile_append_dropWhile]
    · rw [if_neg hc]
      simpa using inOrder_prepend [c] (plainTokensAux_inOrder fuel cs)

theorem plainTokens_inOrder (s : List Char) : inOrder (plainTokens s) s :=
  plainTokensAux_inOrder s.length s

theorem parseLoopAux_invar :
    ∀ (f1 : ℕ) (s : List Char) (f2 : ℕ), s.length ≤ f1 → s.length ≤ f2 →
      parseLoopAux f1 s = parseLoopAux f2 s := by
  intro f1
  induction f1 with
  | zero =>
    intro s f2 h1 _
    obtain rfl : s = [] := List.length_eq_zero.mp (Nat.le_zero.mp h1)
    cases f2 <;> rfl
  | succ f ih =>
    intro s f2 h1 h2
    cases f2 with
    | zero =>
      obtain rfl : s = [] := List.length_eq_zero.mp (Nat.le_zero.mp h2)
      rfl
    | succ f2 =>
      simp only [parseLoopAux]
      match hscan : scanDeriv s with
      | none => rfl
      | some (b, tok, rest) =>
        obtain ⟨hsplit, hlen⟩ := scanDeriv_split hscan
        have hr : rest.length + 3 ≤ s.length := by
          have : s.length = b.length + (tok.length + rest.length) := by
            rw [hsplit]; simp [List.length_append]
          omega
        show plainTokens b ++ tok :: parseLoopAux f rest
            = plainTokens b ++ tok :: parseLoopAux f2 rest
        rw [ih rest f2 (by omega) (by omega)]

/-- The recurrence of the match loop, as the source's `finditer` loop
performs it: the fuel of `parseLoop` is never exhausted, since every
derivative match consumes at least three characters. -/
theorem parseLoop_eq (s : List Char) :
    parseLoop s =
      match scanDeriv s with
      | none => plainTokens s
      | some (b, tok, rest) => plainTokens b ++ tok :: parseLoop rest := by
  match hscan : scanDeriv s with
  | none =>
    simp only [hscan]
    cases s with
    | nil => rfl
    | cons c cs =>
      show parseLoopAux (cs.length + 1) (c :: cs) = _
      simp only [parseLoopAux, hscan]
  | some (b, tok, rest) =>
    simp only [hscan]
    obtain ⟨hsplit, hlen⟩ := scanDeriv_split hscan
    cases s with
    | nil => simp [scanDeriv] at hscan
    | cons c cs =>
      show parseLoopAux (cs.length + 1) (c :: cs) = _
      simp only [parseLoopAux, hscan]
      have hr : rest.length ≤ cs.length := by
        have : (c :: cs).length = b.length + (tok.length + rest.length) := by
          rw [hsplit]; simp [List.length_append]
        simp only [List.length_cons] at this
        omega
      rw [parseLoopAux_invar cs.length rest rest.length hr le_rfl]
      rfl

theorem parseLoopAux_inOrder :
    ∀ (fuel : ℕ) (s : List Char), inOrder (parseLoopAux fuel s) s
  | 0, s => plainTokens_inOrder s
  | fuel + 1, s => by
    simp only [parseLoopAux]
    match hscan : scanDeriv s with
    | none => exact plainTokens_inOrder s
    | some (b, tok, rest) =>
      obtain ⟨hsplit, _⟩ := scanDeriv_split hscan
      rw [hsplit]
      have h2 : inOrder (tok :: parseLoopAux fuel rest) (tok ++ rest) :=
        ⟨[], rest, by simp, parseLoopAux_inOrder fuel rest⟩
      simpa [List.append_assoc] using inOrder_append (plainTokens_inOrder b) h2

theorem parseLoop_inOrder (s : List Char) : inOrder (parseLoop s) s :=
  parseLoopAux_inOrder s.length s

theorem toList_asString (l : List Char) : (List.asString l).toList = l := rfl

/-- C5: the tokenizer maps `"x0x1x2_dot"` to `("x0","x1","x2_dot")`,
`"x1x2_t"` to `("x1","x2_t")`, `"x0x1"` to `("x0","x1")` and `"1"` to the
empty tuple; and for every input string the tokens of the returned tuple
occupy contiguous spans of the input in the same left-to-right order as
their occurrences there. -/
theorem claim_C5 :
    parse_feature "x0x1x2_dot" = ["x0", "x1", "x2_dot"] ∧
    parse_feature "x1x2_t" = ["x1", "x2_t"] ∧
    parse_feature "x0x1" = ["x0", "x1"] ∧
    parse_feature "1" = [] ∧
    ∀ s : String, inOrder ((parse_feature s).map String.toList) s.toList := by
  refine ⟨by decide, by decide, by decide, by decide, fun s => ?_⟩
  have hmap : ∀ l : List (List Char),
      (l.map List.asString).map String.toList = l := by
    intro l
    rw [List.map_map]
    have hfun : String.toList ∘ List.asString = id := funext toList_asString
    rw [hfun, List.map_id]
  unfold parse_feature
  split
  · rw [hmap]
    exact plainTokens_inOrder _
  · rw [hmap]
    exact parseLoop_inOrder _

/-! ### Properties of `expand` -/

theorem expandTermsAux_invar :
    ∀ (f1 : ℕ) (l : List Term) (f2 : ℕ), l.length ≤ f1 → l.length ≤ f2 →
      expandTermsAux f1 l = expandTermsAux f2 l := by
  intro f1
  induction f1 with
  | zero =>
    intro l f2 h1 _
    obtain rfl : l = [] := List.length_eq_zero.mp (Nat.le_zero.mp h1)
    cases f2 <;> rfl
  | succ f ih =>
    intro l f2 h1 h2
    cases l with
    | nil => cases f2 <;> rfl
    | cons t ts =>
      cases f2 with
      | zero => simp at h2
      | succ f2 =>
        simp only [expandTermsAux]
        simp only [List.length_cons, Nat.succ_le_succ_iff] at h1 h2
        have hr1 : (ts.filter (fun u => !decide (u.mon = t.mon))).length ≤ f :=
          le_trans (List.length_filter_le _ _) h1
        have hr2 : (ts.filter (fun u => !decide (u.mon = t.mon))).length ≤ f2 :=
          le_trans (List.length_filter_le _ _) h2
        rw [ih _ f2 hr1 hr2]

/-- The recurrence of the like-monomial collection: the fuel of
`expandTerms` is never exhausted. -/
theorem expandTerms_cons (t : Term) (ts : List Term) :
    expandTerms (t :: ts) =
      if ((ts.filter (fun u => decide (u.mon = t.mon))).foldl
            (fun a u => a.add u.coeff) t.coeff).val = 0 then
        expandTerms (ts.filter (fun u => !decide (u.mon = t.mon)))
      else
        ⟨(ts.filter (fun u => decide (u.mon = t.mon))).foldl
            (fun a u => a.add u.coeff) t.coeff, t.mon⟩ ::
          expandTerms (ts.filter (fun u => !decide (u.mon = t.mon))) := by
  show expandTermsAux (ts.length + 1) (t :: ts) = _
  simp only [expandTermsAux]
  rw [expandTermsAux_invar ts.length _ _ (List.length_filter_le _ _) le_rfl]
  rfl

theorem expandTermsAux_mon_mem :
    ∀ (fuel : ℕ) (l : List Term) (u : Term),
      u ∈ expandTermsAux fuel l → u.mon ∈ l.map Term.mon
  | 0, _, u => by simp [expandTermsAux]
  | _ + 1, [], u => by simp [expandTermsAux]
  | fuel + 1, t :: ts, u => by
    simp only [expandTermsAux]
    intro hu
    have tailcase :
        u ∈ expandTermsAux fuel (ts.filter (fun w => !decide (w.mon = t.mon))) →
          u.mon ∈ (t :: ts).map Term.mon := by
      intro hmem
      have := expandTermsAux_mon_mem fuel _ u hmem
      obtain ⟨w, hw, hwm⟩ := List.mem_map.mp this
      exact List.mem_map.mpr ⟨w, List.mem_cons_of_mem t (List.mem_of_mem_filter hw),
        hwm⟩
    by_cases hc :
        ((ts.filter (fun w => decide (w.mon = t.mon))).foldl
          (fun a w => a.add w.coeff) t.coeff).val = 0
    · rw [if_pos hc] at hu
      exact tailcase hu
    · rw [if_neg hc] at hu
      rcases List.mem_cons.mp hu with h1 | h1
      · rw [h1]
        simp
      · exact tailcase h1

theorem expandTermsAux_nonzero :
    ∀ (fuel : ℕ) (l : List Term) (u : Term),
      u ∈ expandTermsAux fuel l → u.coeff.val ≠ 0
  | 0, _, u => by simp [expandTermsAux]
  | _ + 1, [], u => by simp [expandTermsAux]
  | fuel + 1, t :: ts, u => by
    simp only [expandTermsAux]
    intro hu
    by_cases hc :
        ((ts.filter (fun w => decide (w.mon = t.mon))).foldl
          (fun a w => a.add w.coeff) t.coeff).val = 0
    · rw [if_pos hc] at hu
      exact expandTermsAux_nonzero fuel _ u hu
    · rw [if_neg hc] at hu
      rcases List.mem_cons.mp hu with h1 | h1
      · rw [h1]
        exact hc
      · exact expandTermsAux_nonzero fuel _ u h1

theorem expandTermsAux_monsDistinct :
    ∀ (fuel : ℕ) (l : List Term), monsDistinct (expandTermsAux fuel l)
  | 0, _ => List.Pairwise.nil
  | _ + 1, [] => List.Pairwise.nil
  | fuel + 1, t :: ts => by
    simp only [expandTermsAux]
    by_cases hc :
        ((ts.filter (fun w => decide (w.mon = t.mon))).foldl
          (fun a w => a.add w.coeff) t.coeff).val = 0
    · rw [if_pos hc]
      exact expandTermsAux_monsDistinct fuel _
    · rw [if_neg hc]
      refine List.Pairwise.cons ?_ (expandTermsAux_monsDistinct fuel _)
      intro u hu
      have := expandTermsAux_mon_mem fuel _ u hu
      obtain ⟨w, hw, hwm⟩ := List.mem_map.mp this
      have hne : ¬(w.mon = t.mon) := by
        have := List.of_mem_filter hw
        simpa using this
      intro hcontra
      have ht : t.mon = u.mon := hcontra
      exact hne (by rw [hwm, ← ht])

theorem expandTerms_normal (l : List Term) : Normal (expandTerms l) :=
  ⟨expandTermsAux_monsDistinct _ _, fun u hu => expandTermsAux_nonzero _ _ u hu⟩

theorem expandTerms_of_normal : ∀ l : List Term, Normal l → expandTerms l = l
  | [], _ => rfl
  | t :: ts, h => by
    obtain ⟨hdist, hnz⟩ := h
    have hhead := List.pairwise_cons.mp hdist
    have hsame : ts.filter (fun u => decide (u.mon = t.mon)) = [] := by
      rw [List.filter_eq_nil_iff]
      intro u hu
      simpa using fun hmon => hhead.1 u hu hmon.symm
    have hdiff : ts.filter (fun u => !decide (u.mon = t.mon)) = ts := by
      rw [List.filter_eq_self]
      intro u hu
      simpa using fun hmon => hhead.1 u hu hmon.symm
    rw [expandTerms_cons, hsame, hdiff]
    simp only [List.foldl_nil]
    rw [if_neg (hnz t (List.mem_cons_self t ts))]
    rw [expandTerms_of_normal ts ⟨hhead.2, fun u hu => hnz u (List.mem_cons_of_mem t hu)⟩]

theorem expandTerms_idem (l : List Term) :
    expandTerms (expandTerms l) = expandTerms l :=
  expandTerms_of_normal _ (expandTerms_normal l)

theorem add_isRat {a b : Coeff} (ha : a.isRat = true) (hb : b.isRat = true) :
    (a.add b).isRat = true := by
  cases a <;> cases b <;> simp_all [Coeff.add, Coeff.isRat]

theorem foldl_add_isRat :
    ∀ (l : List Term) (init : Coeff), (∀ t ∈ l, t.coeff.isRat = true) →
      init.isRat = true → (l.foldl (fun a u => a.add u.coeff) init).isRat = true
  | [], init, _, hinit => hinit
  | t :: ts, init, hl, hinit => by
    simp only [List.foldl_cons]
    exact foldl_add_isRat ts _ (fun u hu => hl u (List.mem_cons_of_mem t hu))
      (add_isRat hinit (hl t (List.mem_cons_self t ts)))

theorem expandTermsAux_rat :
    ∀ (fuel : ℕ) (l : List Term), ratCoeffs l → ratCoeffs (expandTermsAux fuel l)
  | 0, _, _ => by intro u hu; simp [expandTermsAux] at hu
  | _ + 1, [], _ => by intro u hu; simp [expandTermsAux] at hu
  | fuel + 1, t :: ts, hl => by
    simp only [expandTermsAux]
    have hts : ratCoeffs (ts.filter (fun u => !decide (u.mon = t.mon))) :=
      fun u hu => hl u (List.mem_cons_of_mem t (List.mem_of_mem_filter hu))
    by_cases hc :
        ((ts.filter (fun w => decide (w.mon = t.mon))).foldl
          (fun a w => a.add w.coeff) t.coeff).val = 0
    · rw [if_pos hc]
      exact expandTermsAux_rat fuel _ hts
    · rw [if_neg hc]
      intro u hu
      rcases List.mem_cons.mp hu with h1 | h1
      · rw [h1]
        exact foldl_add_isRat _ _
          (fun w hw => hl w (List.mem_cons_of_mem t (List.mem_of_mem_filter hw)))
          (hl t (List.mem_cons_self t ts))
      · exact expandTermsAux_rat fuel _ hts u h1

theorem expandTerms_rat {l : List Term} (h : ratCoeffs l) :
    ratCoeffs (expandTerms l) :=
  expandTermsAux_rat _ _ h

/-! ### Properties of the filter, the fallback and `cleanSide` -/

theorem keepTerm_iff {tol : ℚ} {t : Term} :
    keepTerm tol t = true ↔
      t.coeff.isNumber = true ∧ t.coeff.val ≠ 0 ∧ |t.coeff.val| > tol := by
  simp [keepTerm, Coeff.isNumber]

theorem maxTerm_mem : ∀ (ts : List Term) (t : Term), maxTerm t ts ∈ t :: ts
  | [], t => List.mem_cons_self t []
  | u :: us, t => by
    by_cases hc : |u.coeff.val| > |t.coeff.val|
    · have step : maxTerm t (u :: us) = maxTerm u us := by
        show maxTerm (if |u.coeff.val| > |t.coeff.val| then u else t) us = _
        rw [if_pos hc]
      rw [step]
      exact List.mem_cons_of_mem t (maxTerm_mem us u)
    · have step : maxTerm t (u :: us) = maxTerm t us := by
        show maxTerm (if |u.coeff.val| > |t.coeff.val| then u else t) us = _
        rw [if_neg hc]
      rw [step]
      rcases List.mem_cons.mp (maxTerm_mem us t) with h1 | h1
      · rw [h1]
        exact List.mem_cons_self t (u :: us)
      · exact List.mem_cons_of_mem t (List.mem_cons_of_mem u h1)

theorem maxTerm_le :
    ∀ (ts : List Term) (t u : Term), u ∈ t :: ts →
      |u.coeff.val| ≤ |(maxTerm t ts).coeff.val|
  | [], t, u, hu => by
    rcases List.mem_cons.mp hu with h1 | h1
    · rw [h1]; exact le_refl _
    · simp at h1
  | w :: ws, t, u, hu => by
    have step : maxTerm t (w :: ws)
        = maxTerm (if |w.coeff.val| > |t.coeff.val| then w else t) ws := rfl
    rw [step]
    set b := if |w.coeff.val| > |t.coeff.val| then w else t with hb
    have hbt : |t.coeff.val| ≤ |b.coeff.val| := by
      by_cases hc : |w.coeff.val| > |t.coeff.val|
      · rw [hb, if_pos hc]; exact le_of_lt hc
      · rw [hb, if_neg hc]
    have hbw : |w.coeff.val| ≤ |b.coeff.val| := by
      by_cases hc : |w.coeff.val| > |t.coeff.val|
      · rw [hb, if_pos hc]
      · rw [hb, if_neg hc]; exact le_of_not_lt hc
    have hbmax : |b.coeff.val| ≤ |(maxTerm b ws).coeff.val| :=
      maxTerm_le ws b b (List.mem_cons_self b ws)
    rcases List.mem_cons.mp hu with h1 | h1
    · rw [h1]; exact le_trans hbt hbmax
    · rcases List.mem_cons.mp h1 with h2 | h2
      · rw [h2]; exact le_trans hbw hbmax
      · exact maxTerm_le ws b u (List.mem_cons_of_mem b h2)

theorem cleanSide_single (tol : ℚ) (t : Term) : cleanSide tol [t] = [t] := by
  unfold cleanSide
  by_cases h : keepTerm tol t
  · simp [h, maxTerm]
  · simp [h, maxTerm]

theorem cleanSide_subset {tol : ℚ} {l : List Term} :
    ∀ u ∈ cleanSide tol l, u ∈ l := by
  intro u hu
  unfold cleanSide at hu
  by_cases he : (l.filter (keepTerm tol)).isEmpty
  · rw [if_pos he] at hu
    match l, hu with
    | t :: ts, hu =>
      have : u = maxTerm t ts := by simpa using hu
      rw [this]
      exact maxTerm_mem ts t
  · rw [if_neg he] at hu
    exact List.mem_of_mem_filter hu

theorem cleanSide_ne_nil {tol : ℚ} {l : List Term} (h : l ≠ []) :
    cleanSide tol l ≠ [] := by
  unfold cleanSide
  by_cases he : (l.filter (keepTerm tol)).isEmpty
  · rw [if_pos he]
    match l, h with
    | t :: ts, _ => simp
  · rw [if_neg he]
    intro hc
    rw [hc] at he
    simp at he

theorem cleanSide_of_filter_ne_nil {tol : ℚ} {l : List Term}
    (h : l.filter (keepTerm tol) ≠ []) :
    cleanSide tol l = l.filter (keepTerm tol) := by
  unfold cleanSide
  rw [if_neg (by simpa [List.isEmpty_iff] using h)]

theorem cleanSide_fallback {tol : ℚ} (t : Term) (ts : List Term)
    (h : (t :: ts).filter (keepTerm tol) = []) :
    cleanSide tol (t :: ts) = [maxTerm t ts] := by
  unfold cleanSide
  rw [if_pos (by simp [h])]

theorem cleanSide_multi {tol : ℚ} {l : List Term}
    (h : 2 ≤ (cleanSide tol l).length) :
    cleanSide tol l = l.filter (keepTerm tol) := by
  by_cases hf : l.filter (keepTerm tol) = []
  · exfalso
    unfold cleanSide at h
    rw [if_pos (by simp [hf])] at h
    match l, h with
    | [], h => simp at h
    | t :: ts, h => simp at h
  · exact cleanSide_of_filter_ne_nil hf

theorem cleanSide_keep {tol : ℚ} {l : List Term}
    (hmulti : cleanSide tol l = l.filter (keepTerm tol)) :
    ∀ u ∈ cleanSide tol l, keepTerm tol u = true := by
  intro u hu
  rw [hmulti] at hu
  exact List.of_mem_filter hu

/-- C2: a term of the expanded numerator or denominator survives the
filter iff its scalar coefficient is numeric, nonzero and of magnitude
strictly above `tol`; a side whose filter came back empty while the side
was nonempty retains exactly its single largest-magnitude original term,
so a nonempty side never comes back empty; and `drop_small_terms` is the
quotient of the two cleaned sides (or `zoo` on a zero denominator). -/
theorem claim_C2 (p : RatExpr) (tol : ℚ) :
    (∀ t : Term, t ∈ (expandTerms p.num).filter (keepTerm tol) ↔
        t ∈ expandTerms p.num ∧
          (t.coeff.isNumber = true ∧ t.coeff.val ≠ 0 ∧ |t.coeff.val| > tol)) ∧
    (∀ t : Term, t ∈ (expandTerms p.den).filter (keepTerm tol) ↔
        t ∈ expandTerms p.den ∧
          (t.coeff.isNumber = true ∧ t.coeff.val ≠ 0 ∧ |t.coeff.val| > tol)) ∧
    (∀ l : List Term, l ≠ [] → cleanSide tol l ≠ []) ∧
    (∀ (t : Term) (ts : List Term), (t :: ts).filter (keepTerm tol) = [] →
        cleanSide tol (t :: ts) = [maxTerm t ts] ∧ maxTerm t ts ∈ t :: ts ∧
          ∀ u ∈ t :: ts, |u.coeff.val| ≤ |(maxTerm t ts).coeff.val|) ∧
    drop_small_terms (.rat p) tol =
      (if (cleanSide tol (expandTerms p.den)).isEmpty then SymExpr.zoo
       else SymExpr.rat (buildQuotient (cleanSide tol (expandTerms p.num))
          (cleanSide tol (expandTerms p.den)))) := by
  refine ⟨?_, ?_, ?_, ?_, rfl⟩
  · intro t
    constructor
    · intro ht
      exact ⟨List.mem_of_mem_filter ht, keepTerm_iff.mp (List.of_mem_filter ht)⟩
    · intro ⟨hmem, hcond⟩
      exact List.mem_filter.mpr ⟨hmem, keepTerm_iff.mpr hcond⟩
  · intro t
    constructor
    · intro ht
      exact ⟨List.mem_of_mem_filter ht, keepTerm_iff.mp (List.of_mem_filter ht)⟩
    · intro ⟨hmem, hcond⟩
      exact List.mem_filter.mpr ⟨hmem, keepTerm_iff.mpr hcond⟩
  · exact fun l h => cleanSide_ne_nil h
  · intro t ts h
    exact ⟨cleanSide_fallback t ts h, maxTerm_mem ts t, fun u hu => maxTerm_le ts t u hu⟩

/-- C3: whenever the cleaned denominator (after filtering and fallback) is
identically zero, `drop_small_terms` returns the explicit undefined
sentinel `zoo` — never a rational value (in particular never the number
zero), and without raising (the model function is total). -/
theorem claim_C3 (p : RatExpr) (tol : ℚ)
    (h : cleanSide tol (expandTerms p.den) = []) :
    drop_small_terms (.rat p) tol = SymExpr.zoo ∧
      ∀ q : RatExpr, drop_small_terms (.rat p) tol ≠ SymExpr.rat q := by
  have hz : drop_small_terms (.rat p) tol = SymExpr.zoo := by
    show (if (cleanSide tol (expandTerms p.den)).isEmpty then SymExpr.zoo
          else SymExpr.rat (buildQuotient (cleanSide tol (expandTerms p.num))
            (cleanSide tol (expandTerms p.den)))) = SymExpr.zoo
    rw [if_pos (by simp [h])]
  exact ⟨hz, fun q hq => by rw [hz] at hq; cases hq⟩

/-- Witness for C3 at the concrete input `1/0` (numerator `1`, denominator
the zero polynomial). -/
theorem claim_C3_witness :
    drop_small_terms (.rat ⟨[⟨Coeff.rat 1, []⟩], []⟩) (1 / 1000000) = SymExpr.zoo ∧
      ∀ q : RatExpr,
        drop_small_terms (.rat ⟨[⟨Coeff.rat 1, []⟩], []⟩) (1 / 1000000) ≠
          SymExpr.rat q :=
  claim_C3 ⟨[⟨Coeff.rat 1, []⟩], []⟩ (1 / 1000000) (by decide)

/-! ### Idempotence of the term dropper over exact rationals -/

theorem drop_small_terms_rat (p : RatExpr) (tol : ℚ) :
    drop_small_terms (.rat p) tol =
      if (cleanSide tol (expandTerms p.den)).isEmpty then SymExpr.zoo
      else SymExpr.rat (buildQuotient (cleanSide tol (expandTerms p.num))
        (cleanSide tol (expandTerms p.den))) := rfl

theorem Coeff.eq_rat {c : Coeff} (h : c.isRat = true) : c = Coeff.rat c.val := by
  cases c with
  | rat q => rfl
  | flt q => simp [Coeff.isRat] at h

theorem expandTerms_single {t : Term} (h : t.coeff.val ≠ 0) :
    expandTerms [t] = [t] :=
  expandTerms_of_normal [t]
    ⟨List.pairwise_singleton _ _, by
      intro u hu
      rw [List.mem_singleton.mp hu]
      exact h⟩

theorem scale_one (t : Term) : Term.scale (Coeff.rat 1) t = t := by
  cases t with
  | mk c m => cases c <;> simp [Term.scale, Coeff.mul, Coeff.val]

theorem map_scale_one (l : List Term) : l.map (Term.scale (Coeff.rat 1)) = l := by
  have h : Term.scale (Coeff.rat 1) = id := funext scale_one
  rw [h, List.map_id]

theorem scale_mon (x : ℚ) (t : Term) :
    (Term.scale (Coeff.rat x) t).mon = t.mon := rfl

theorem scale_val (x : ℚ) (t : Term) :
    (Term.scale (Coeff.rat x) t).coeff.val = x * t.coeff.val := by
  cases t with
  | mk c m => cases c <;> simp [Term.scale, Coeff.mul, Coeff.val]

theorem scale_isRat {x : ℚ} {t : Term} (h : t.coeff.isRat = true) :
    (Term.scale (Coeff.rat x) t).coeff.isRat = true := by
  cases t with
  | mk c m =>
    cases c with
    | rat q => rfl
    | flt q => simp [Coeff.isRat] at h

theorem map_scale_monsDistinct {x : ℚ} {l : List Term} (h : monsDistinct l) :
    monsDistinct (l.map (Term.scale (Coeff.rat x))) := by
  unfold monsDistinct at h ⊢
  rw [List.pairwise_map]
  simpa [scale_mon] using h

theorem map_scale_nonzero {x : ℚ} (hx : x ≠ 0) {l : List Term}
    (h : ∀ t ∈ l, t.coeff.val ≠ 0) :
    ∀ t ∈ l.map (Term.scale (Coeff.rat x)), t.coeff.val ≠ 0 := by
  intro t ht
  obtain ⟨u, hu, rfl⟩ := List.mem_map.mp ht
  rw [scale_val]
  exact mul_ne_zero hx (h u hu)

theorem map_scale_keep {x : ℚ} (hx : 1 ≤ |x|) {tol : ℚ} {l : List Term}
    (h : ∀ t ∈ l, keepTerm tol t = true) :
    ∀ t ∈ l.map (Term.scale (Coeff.rat x)), keepTerm tol t = true := by
  intro t ht
  obtain ⟨u, hu, rfl⟩ := List.mem_map.mp ht
  obtain ⟨_, hnz, habs⟩ := keepTerm_iff.mp (h u hu)
  refine keepTerm_iff.mpr ⟨rfl, ?_, ?_⟩
  · rw [scale_val]
    exact mul_ne_zero (by intro h0; rw [h0] at hx; norm_num at hx) hnz
  · rw [scale_val, abs_mul]
    calc tol < |u.coeff.val| := habs
      _ = 1 * |u.coeff.val| := (one_mul _).symm
      _ ≤ |x| * |u.coeff.val| := by
          exact mul_le_mul_of_nonneg_right hx (abs_nonneg _)

theorem cleanSide_of_all_keep {tol : ℚ} {l : List Term} (hne : l ≠ [])
    (h : ∀ u ∈ l, keepTerm tol u = true) : cleanSide tol l = l := by
  have hfilter : l.filter (keepTerm tol) = l := List.filter_eq_self.mpr h
  rw [cleanSide_of_filter_ne_nil (by rw [hfilter]; exact hne), hfilter]

theorem cleanSide_monsDistinct {tol : ℚ} {l : List Term} (h : monsDistinct l) :
    monsDistinct (cleanSide tol l) := by
  unfold cleanSide
  by_cases he : (l.filter (keepTerm tol)).isEmpty
  · rw [if_pos he]
    match l with
    | [] => exact List.Pairwise.nil
    | t :: ts => exact List.pairwise_singleton _ _
  · rw [if_neg he]
    exact List.Pairwise.sublist (List.filter_sublist _) h

theorem buildQuotient_single_single {a c : ℚ} (ha : a ≠ 0) (hc : c ≠ 0)
    (mn md : Mon) :
    buildQuotient [⟨Coeff.rat a, mn⟩] [⟨Coeff.rat c, md⟩]
      = ⟨[⟨Coeff.rat ((a / c).num : ℚ), mn⟩],
         [⟨Coeff.rat ((a / c).den : ℚ), md⟩]⟩ := by
  show (⟨expandTerms [⟨Coeff.rat (((a * c⁻¹).num : ℚ) * 1), mn⟩],
         expandTerms [⟨Coeff.rat (((a * c⁻¹).den : ℚ) * 1), md⟩]⟩ : RatExpr) = _
  rw [mul_one, mul_one, ← div_eq_mul_inv]
  have hq : a / c ≠ 0 := div_ne_zero ha hc
  have hn : (⟨Coeff.rat ((a / c).num : ℚ), mn⟩ : Term).coeff.val ≠ 0 := by
    show ((a / c).num : ℚ) ≠ 0
    exact Int.cast_ne_zero.mpr (Rat.num_ne_zero.mpr hq)
  have hd : (⟨Coeff.rat ((a / c).den : ℚ), md⟩ : Term).coeff.val ≠ 0 := by
    show ((a / c).den : ℚ) ≠ 0
    exact Nat.cast_ne_zero.mpr (a / c).den_nz
  rw [expandTerms_single hn, expandTerms_single hd]

theorem buildQuotient_single_multi {a : ℚ} (ha : a ≠ 0) (mn : Mon)
    (d1 d2 : Term) (ds : List Term)
    (hdd : monsDistinct (d1 :: d2 :: ds))
    (hnz : ∀ t ∈ d1 :: d2 :: ds, t.coeff.val ≠ 0) :
    buildQuotient [⟨Coeff.rat a, mn⟩] (d1 :: d2 :: ds)
      = ⟨[⟨Coeff.rat (a.num : ℚ), mn⟩],
         (d1 :: d2 :: ds).map (Term.scale (Coeff.rat (a.den : ℚ)))⟩ := by
  show (⟨expandTerms [⟨Coeff.rat (((a * (1 : ℚ)⁻¹).num : ℚ) * 1), mn⟩],
         expandTerms ((d1 :: d2 :: ds).map
           (Term.scale (Coeff.rat ((a * (1 : ℚ)⁻¹).den : ℚ))))⟩ : RatExpr) = _
  have h1 : a * (1 : ℚ)⁻¹ = a := by rw [inv_one, mul_one]
  rw [h1, mul_one]
  have hn : (⟨Coeff.rat (a.num : ℚ), mn⟩ : Term).coeff.val ≠ 0 := by
    show (a.num : ℚ) ≠ 0
    exact Int.cast_ne_zero.mpr (Rat.num_ne_zero.mpr ha)
  have hden : ((a.den : ℚ) : ℚ) ≠ 0 := Nat.cast_ne_zero.mpr a.den_nz
  rw [expandTerms_single hn,
    expandTerms_of_normal _
      ⟨map_scale_monsDistinct hdd, map_scale_nonzero hden hnz⟩]

theorem buildQuotient_multi_single {c : ℚ} (hc : c ≠ 0)
    (n1 n2 : Term) (ns : List Term) (md : Mon)
    (hdn : monsDistinct (n1 :: n2 :: ns))
    (hnz : ∀ t ∈ n1 :: n2 :: ns, t.coeff.val ≠ 0) :
    buildQuotient (n1 :: n2 :: ns) [⟨Coeff.rat c, md⟩]
      = ⟨(n1 :: n2 :: ns).map (Term.scale (Coeff.rat ((c⁻¹).num : ℚ))),
         [⟨Coeff.rat ((c⁻¹).den : ℚ), md⟩]⟩ := by
  show (⟨expandTerms ((n1 :: n2 :: ns).map
           (Term.scale (Coeff.rat (((1 * c⁻¹ : ℚ)).num : ℚ)))),
         expandTerms [⟨Coeff.rat ((((1 * c⁻¹ : ℚ)).den : ℚ) * 1), md⟩]⟩ : RatExpr)
      = _
  have h1 : (1 : ℚ) * c⁻¹ = c⁻¹ := one_mul _
  rw [h1, mul_one]
  have hinv : c⁻¹ ≠ 0 := inv_ne_zero hc
  have hd : (⟨Coeff.rat ((c⁻¹).den : ℚ), md⟩ : Term).coeff.val ≠ 0 := by
    show (((c⁻¹).den : ℚ)) ≠ 0
    exact Nat.cast_ne_zero.mpr (c⁻¹).den_nz
  have hnum : (((c⁻¹).num : ℚ)) ≠ 0 := Int.cast_ne_zero.mpr (Rat.num_ne_zero.mpr hinv)
  rw [expandTerms_of_normal _
      ⟨map_scale_monsDistinct hdn, map_scale_nonzero hnum hnz⟩,
    expandTerms_single hd]

theorem buildQuotient_multi_multi
    (n1 n2 : Term) (ns : List Term) (d1 d2 : Term) (ds : List Term)
    (hdn : monsDistinct (n1 :: n2 :: ns))
    (hnzn : ∀ t ∈ n1 :: n2 :: ns, t.coeff.val ≠ 0)
    (hdd : monsDistinct (d1 :: d2 :: ds))
    (hnzd : ∀ t ∈ d1 :: d2 :: ds, t.coeff.val ≠ 0) :
    buildQuotient (n1 :: n2 :: ns) (d1 :: d2 :: ds)
      = ⟨n1 :: n2 :: ns, d1 :: d2 :: ds⟩ := by
  show (⟨expandTerms ((n1 :: n2 :: ns).map
           (Term.scale (Coeff.rat (((1 * (1 : ℚ)⁻¹).num : ℚ))))),
         expandTerms ((d1 :: d2 :: ds).map
           (Term.scale (Coeff.rat (((1 * (1 : ℚ)⁻¹).den : ℚ)))))⟩ : RatExpr) = _
  have h1 : (1 : ℚ) * (1 : ℚ)⁻¹ = 1 := by norm_num
  have hnum : (((1 : ℚ).num : ℚ)) = 1 := by norm_num
  have hden : (((1 : ℚ).den : ℚ)) = 1 := by norm_num
  rw [h1, hnum, hden, map_scale_one, map_scale_one,
    expandTerms_of_normal _ ⟨hdn, hnzn⟩, expandTerms_of_normal _ ⟨hdd, hnzd⟩]

theorem drop_of_stable {tol : ℚ} {a b : List Term}
    (hea : expandTerms a = a) (heb : expandTerms b = b)
    (hca : cleanSide tol a = a) (hcb : cleanSide tol b = b) (hb : b ≠ []) :
    drop_small_terms (.rat ⟨a, b⟩) tol = .rat (buildQuotient a b) := by
  rw [drop_small_terms_rat]
  show (if (cleanSide tol (expandTerms b)).isEmpty then SymExpr.zoo
        else SymExpr.rat (buildQuotient (cleanSide tol (expandTerms a))
          (cleanSide tol (expandTerms b)))) = _
  rw [hea, heb, hca, hcb, if_neg (by simpa [List.isEmpty_iff] using hb)]

theorem cleanSide_nil (tol : ℚ) : cleanSide tol [] = [] := rfl

theorem one_le_abs_num {q : ℚ} (hq : q ≠ 0) : 1 ≤ |(q.num : ℚ)| := by
  exact_mod_cast Int.one_le_abs (Rat.num_ne_zero.mpr hq)

theorem one_le_abs_den (q : ℚ) : 1 ≤ |(q.den : ℚ)| := by
  rw [abs_of_nonneg (by positivity : (0 : ℚ) ≤ (q.den : ℚ))]
  exact_mod_cast Nat.one_le_iff_ne_zero.mpr q.den_nz

/-- The heart of rational idempotence: the quotient the term dropper
rebuilds from two cleaned sides is untouched by a second pass — the
rational numeric content that `as_numer_denom` redistributes is an
integer scaling on each side (magnitude at least one, so no surviving
term can sink below the tolerance), and redistributing it again is the
identity. -/
theorem buildQuotient_stable (tol : ℚ) (numC denC : List Term)
    (hratn : ratCoeffs numC) (hratd : ratCoeffs denC)
    (hnzn : ∀ t ∈ numC, t.coeff.val ≠ 0) (hnzd : ∀ t ∈ denC, t.coeff.val ≠ 0)
    (hdn : monsDistinct numC) (hdd : monsDistinct denC)
    (hden0 : denC ≠ [])
    (hkn : 2 ≤ numC.length → ∀ u ∈ numC, keepTerm tol u = true)
    (hkd : 2 ≤ denC.length → ∀ u ∈ denC, keepTerm tol u = true) :
    drop_small_terms (.rat (buildQuotient numC denC)) tol
      = .rat (buildQuotient numC denC) := by
  cases numC with
  | nil =>
    show drop_small_terms (.rat ⟨[], [⟨Coeff.rat 1, []⟩]⟩) tol = _
    have h1 : (⟨Coeff.rat 1, []⟩ : Term).coeff.val ≠ 0 := by
      show (1 : ℚ) ≠ 0
      norm_num
    rw [drop_of_stable rfl (expandTerms_single h1) (cleanSide_nil tol)
      (cleanSide_single tol _) (by simp)]
    rfl
  | cons n ns =>
    obtain ⟨nc, nm⟩ := n
    cases ns with
    | nil =>
      -- single-term numerator
      have hna : nc = Coeff.rat nc.val :=
        Coeff.eq_rat (hratn _ (List.mem_singleton_self _))
      have ha : nc.val ≠ 0 := hnzn _ (List.mem_singleton_self _)
      cases denC with
      | nil => exact absurd rfl hden0
      | cons d ds =>
        obtain ⟨dc, dm⟩ := d
        cases ds with
        | nil =>
          -- single / single
          have hdc : dc = Coeff.rat dc.val :=
            Coeff.eq_rat (hratd _ (List.mem_singleton_self _))
          have hc : dc.val ≠ 0 := hnzd _ (List.mem_singleton_self _)
          rw [hna, hdc, buildQuotient_single_single ha hc nm dm]
          have hq : nc.val / dc.val ≠ 0 := div_ne_zero ha hc
          have hqn : (((nc.val / dc.val).num : ℚ)) ≠ 0 :=
            Int.cast_ne_zero.mpr (Rat.num_ne_zero.mpr hq)
          have hqd : (((nc.val / dc.val).den : ℚ)) ≠ 0 :=
            Nat.cast_ne_zero.mpr (nc.val / dc.val).den_nz
          have hqn' : (⟨Coeff.rat (((nc.val / dc.val).num : ℚ)), nm⟩ :
              Term).coeff.val ≠ 0 := hqn
          have hqd' : (⟨Coeff.rat (((nc.val / dc.val).den : ℚ)), dm⟩ :
              Term).coeff.val ≠ 0 := hqd
          rw [drop_of_stable (expandTerms_single hqn') (expandTerms_single hqd')
            (cleanSide_single tol _) (cleanSide_single tol _) (by simp)]
          rw [buildQuotient_single_single hqn hqd nm dm, Rat.num_div_den]
        | cons d2 ds2 =>
          -- single / multi
          rw [hna, buildQuotient_single_multi ha nm _ d2 ds2 hdd hnzd]
          have hx0 : ((nc.val.den : ℚ)) ≠ 0 := Nat.cast_ne_zero.mpr nc.val.den_nz
          have hx1 : 1 ≤ |((nc.val.den : ℚ))| := one_le_abs_den nc.val
          have han : ((nc.val.num : ℚ)) ≠ 0 :=
            Int.cast_ne_zero.mpr (Rat.num_ne_zero.mpr ha)
          have hkeep : ∀ u ∈ (⟨dc, dm⟩ :: d2 :: ds2).map
              (Term.scale (Coeff.rat ((nc.val.den : ℚ)))),
              keepTerm tol u = true :=
            map_scale_keep hx1 (hkd (by simp))
          have hdist : monsDistinct ((⟨dc, dm⟩ :: d2 :: ds2).map
              (Term.scale (Coeff.rat ((nc.val.den : ℚ))))) :=
            map_scale_monsDistinct hdd
          have hnz : ∀ t ∈ (⟨dc, dm⟩ :: d2 :: ds2).map
              (Term.scale (Coeff.rat ((nc.val.den : ℚ)))), t.coeff.val ≠ 0 :=
            map_scale_nonzero hx0 hnzd
          have han' : (⟨Coeff.rat ((nc.val.num : ℚ)), nm⟩ : Term).coeff.val ≠ 0 :=
            han
          rw [drop_of_stable (expandTerms_single han')
            (expandTerms_of_normal _ ⟨hdist, hnz⟩) (cleanSide_single tol _)
            (cleanSide_of_all_keep (by simp) hkeep) (by simp)]
          simp only [List.map_cons] at hdist hnz ⊢
          rw [buildQuotient_single_multi han nm _ _ _ hdist hnz]
          rw [Rat.intCast_num, Rat.intCast_den]
          simp only [Nat.cast_one, List.map_cons] at *
          rw [← List.map_cons, ← List.map_cons, map_scale_one]
    | cons n2 ns2 =>
      -- multi-term numerator
      have hknum : ∀ u ∈ ⟨nc, nm⟩ :: n2 :: ns2, keepTerm tol u = true :=
        hkn (by simp)
      cases denC with
      | nil => exact absurd rfl hden0
      | cons d ds =>
        obtain ⟨dc, dm⟩ := d
        cases ds with
        | nil =>
          -- multi / single
          have hdc : dc = Coeff.rat dc.val :=
            Coeff.eq_rat (hratd _ (List.mem_singleton_self _))
          have hc : dc.val ≠ 0 := hnzd _ (List.mem_singleton_self _)
          rw [hdc, buildQuotient_multi_single hc _ n2 ns2 dm hdn hnzn]
          have hw : (dc.val)⁻¹ ≠ 0 := inv_ne_zero hc
          have hwn : ((((dc.val)⁻¹).num : ℚ)) ≠ 0 :=
            Int.cast_ne_zero.mpr (Rat.num_ne_zero.mpr hw)
          have hwn1 : 1 ≤ |((((dc.val)⁻¹).num : ℚ))| := one_le_abs_num hw
          have hwd : ((((dc.val)⁻¹).den : ℚ)) ≠ 0 :=
            Nat.cast_ne_zero.mpr ((dc.val)⁻¹).den_nz
          have hkeep : ∀ u ∈ (⟨nc, nm⟩ :: n2 :: ns2).map
              (Term.scale (Coeff.rat ((((dc.val)⁻¹).num : ℚ)))),
              keepTerm tol u = true :=
            map_scale_keep hwn1 hknum
          have hdist : monsDistinct ((⟨nc, nm⟩ :: n2 :: ns2).map
              (Term.scale (Coeff.rat ((((dc.val)⁻¹).num : ℚ))))) :=
            map_scale_monsDistinct hdn
          have hnz : ∀ t ∈ (⟨nc, nm⟩ :: n2 :: ns2).map
              (Term.scale (Coeff.rat ((((dc.val)⁻¹).num : ℚ)))),
              t.coeff.val ≠ 0 :=
            map_scale_nonzero hwn hnzn
          have hwd' : (⟨Coeff.rat ((((dc.val)⁻¹).den : ℚ)), dm⟩ :
              Term).coeff.val ≠ 0 := hwd
          rw [drop_of_stable (expandTerms_of_normal _ ⟨hdist, hnz⟩)
            (expandTerms_single hwd') (cleanSide_of_all_keep (by simp) hkeep)
            (cleanSide_single tol _) (by simp)]
          simp only [List.map_cons] at hdist hnz ⊢
          rw [buildQuotient_multi_single hwd _ _ _ dm hdist hnz]
          rw [Rat.inv_natCast_num_of_pos ((dc.val)⁻¹).pos,
            Rat.inv_natCast_den_of_pos ((dc.val)⁻¹).pos]
          simp only [Int.cast_one, List.map_cons] at *
          rw [← List.map_cons, ← List.map_cons, map_scale_one]
        | cons d2 ds2 =>
          -- multi / multi
          have hkden : ∀ u ∈ ⟨dc, dm⟩ :: d2 :: ds2, keepTerm tol u = true :=
            hkd (by simp)
          rw [buildQuotient_multi_multi _ n2 ns2 _ d2 ds2 hdn hnzn hdd hnzd]
          rw [drop_of_stable (expandTerms_of_normal _ ⟨hdn, hnzn⟩)
            (expandTerms_of_normal _ ⟨hdd, hnzd⟩)
            (cleanSide_of_all_keep (by simp) hknum)
            (cleanSide_of_all_keep (by simp) hkden) (by simp)]
          rw [buildQuotient_multi_multi _ n2 ns2 _ d2 ds2 hdn hnzn hdd hnzd]

/-- C6 (amended): `drop_small_terms` is idempotent on expressions all of
whose numeric coefficients are exact rationals.  (As stated for arbitrary
coefficients the claim fails: a float coefficient extracted from a
single-term denominator migrates whole into the numerator when the
cleaned quotient is rebuilt, rescaling the surviving numerator
coefficients, and a second pass can then drop further terms — see the
counterexample.) -/
theorem claim_C6 (e : SymExpr) (tol : ℚ) (h : allRat e) :
    drop_small_terms (drop_small_terms e tol) tol = drop_small_terms e tol := by
  cases e with
  | zoo => rfl
  | rat p =>
    obtain ⟨hnum, hden⟩ := h
    rw [drop_small_terms_rat p tol]
    by_cases hd0 : (cleanSide tol (expandTerms p.den)).isEmpty
    · rw [if_pos hd0]
      rfl
    · rw [if_neg hd0]
      have hnN := expandTerms_normal p.num
      have hdN := expandTerms_normal p.den
      refine buildQuotient_stable tol _ _
        (fun t ht => expandTerms_rat hnum t (cleanSide_subset t ht))
        (fun t ht => expandTerms_rat hden t (cleanSide_subset t ht))
        (fun t ht => hnN.2 t (cleanSide_subset t ht))
        (fun t ht => hdN.2 t (cleanSide_subset t ht))
        (cleanSide_monsDistinct hnN.1) (cleanSide_monsDistinct hdN.1)
        (by simpa [List.isEmpty_iff] using hd0) ?_ ?_
      · intro hlen
        exact cleanSide_keep (cleanSide_multi hlen)
      · intro hlen
        exact cleanSide_keep (cleanSide_multi hlen)

/-- Witness for C6 at a concrete all-rational input `x/(2·x⁰·…)`. -/
theorem claim_C6_witness :
    drop_small_terms (drop_small_terms
        (.rat ⟨[⟨Coeff.rat 1, [1]⟩], [⟨Coeff.rat 2, [0]⟩]⟩) (1 / 1000000))
        (1 / 1000000)
      = drop_small_terms
        (.rat ⟨[⟨Coeff.rat 1, [1]⟩], [⟨Coeff.rat 2, [0]⟩]⟩) (1 / 1000000) :=
  claim_C6 (.rat ⟨[⟨Coeff.rat 1, [1]⟩], [⟨Coeff.rat 2, [0]⟩]⟩) (1 / 1000000)
    ⟨fun t ht => by rw [List.mem_singleton.mp ht]; rfl, fun t ht => by
      rw [List.mem_singleton.mp ht]; rfl⟩

/-- C6 fails as stated when float coefficients are present: at the input
whose expanded pair is `(2e-6·x + 3, 5.0·y)` (reachable in SymPy as
`(2e-6*x + 3)/(5.0*(y + 1) - 5.0)`) with `tol = 1e-6`, the first pass
keeps every term but rebuilding `num/den` turns the pair into
`(0.2·(2e-6·x + 3), y)`, and the second pass drops the rescaled `4e-7·x`
term. -/
theorem claim_C6_counterexample :
    drop_small_terms (drop_small_terms
        (.rat ⟨[⟨Coeff.flt (1 / 500000), [1, 0]⟩, ⟨Coeff.rat 3, [0, 0]⟩],
               [⟨Coeff.flt 5, [0, 1]⟩]⟩) (1 / 1000000)) (1 / 1000000)
      ≠ drop_small_terms
        (.rat ⟨[⟨Coeff.flt (1 / 500000), [1, 0]⟩, ⟨Coeff.rat 3, [0, 0]⟩],
               [⟨Coeff.flt 5, [0, 1]⟩]⟩) (1 / 1000000) := by
  decide

/-! ### Rescaling claims -/

/-- The input `x/(2·y + 1)` on which the rescale guarantee fails
(variables: position 0 is `x`, position 1 is `y`). -/
def rescaleFailingInput : RatExpr :=
  ⟨[⟨Coeff.rat 1, [1, 0]⟩], [⟨Coeff.rat 2, [0, 1]⟩, ⟨Coeff.rat 1, [0, 0]⟩]⟩

/-- C1 evaluated at the failing input `x/(2·y + 1)` (no target, default
generators `(y,)`): the selection chooses the maximum-total-degree
monomial `y` (exponent tuple `[1]` over the generators), its coefficient
`2` passes the guard and rescaling reports success — but the returned
expression is `2·x/(4·y + 2)`: the distributed factor `1/2` is an exact
rational, so the numerator/denominator split clears it back out as
content, re-scaling both sides by `L_N·L_D = 4`, and the chosen
monomial's coefficient in the returned denominator is `4`, not the
guaranteed `1` (the result is still algebraically equal to the input, the
other half of the claimed invariant).  Only exact-rational scaling
coefficients are affected: a `Float` one stays whole in the numerator of
the split, as `rescale_flt_unit` below records. -/
theorem claim_C1 :
    chosenMonomial rescaleFailingInput none none = some [1] ∧
    scalingCoeff rescaleFailingInput none none = some (Coeff.rat 2) ∧
    rescale_expression rescaleFailingInput none none
      = ⟨[⟨Coeff.rat 2, [1, 0]⟩],
         [⟨Coeff.rat 4, [0, 1]⟩, ⟨Coeff.rat 2, [0, 0]⟩]⟩ ∧
    polyCoeff (rescale_expression rescaleFailingInput none none).den [1] [1]
      = some (Coeff.rat 4) ∧
    (Coeff.rat 4).val ≠ 1 := by
  decide

/-- With a `Float` scaling coefficient the rescale does land: on
`x/(5.0·y + 1)` the chosen monomial `y` has coefficient `5.0`, every
divided coefficient is a `Float`, nothing rational is cleared back, and
the returned denominator's `y`-coefficient is the float `1.0` —
numerically exactly `1`. -/
theorem rescale_flt_unit :
    scalingCoeff ⟨[⟨Coeff.rat 1, [1, 0]⟩],
        [⟨Coeff.flt 5, [0, 1]⟩, ⟨Coeff.rat 1, [0, 0]⟩]⟩ none none
      = some (Coeff.flt 5) ∧
    rescale_expression ⟨[⟨Coeff.rat 1, [1, 0]⟩],
        [⟨Coeff.flt 5, [0, 1]⟩, ⟨Coeff.rat 1, [0, 0]⟩]⟩ none none
      = ⟨[⟨Coeff.flt (1 / 5), [1, 0]⟩],
         [⟨Coeff.flt 1, [0, 1]⟩, ⟨Coeff.flt (1 / 5), [0, 0]⟩]⟩ ∧
    (Coeff.flt 1).val = 1 := by
  decide

/-- C7: whenever the denominator is constant, or no usable scaling
coefficient exists — the denominator polynomial has no monomials, or the
selected (target, else leading) monomial's coefficient is non-numeric,
zero, or of magnitude not above `1e-12` — `rescale_expression` returns its
input unchanged; the model function is total, so no error is raised. -/
theorem claim_C7 (e : RatExpr) (target : Option Mon) (gens0 : Option (List ℕ))
    (h : isNumberTerms e.den = true ∨ scalingCoeff e target gens0 = none) :
    rescale_expression e target gens0 = e := by
  by_cases hconst : isNumberTerms e.den
  · show (if isNumberTerms e.den then e else _) = e
    rw [if_pos hconst]
  · have hsel : scalingCoeff e target gens0 = none := by
      rcases h with h | h
      · exact absurd h hconst
      · exact h
    show (if isNumberTerms e.den then e else _) = e
    rw [if_neg hconst]
    unfold scalingCoeff at hsel
    match htc : targetCoeff e.den (gens0.getD (defaultGens e.den)) target with
    | some c =>
      simp only [htc] at hsel
      cases hsel
    | none =>
      simp only [htc] at hsel
      show (match polyMonoms e.den (gens0.getD (defaultGens e.den)) with
        | [] => e
        | m :: ms =>
          match polyCoeff e.den (gens0.getD (defaultGens e.den))
              (leadMonomial m ms) with
          | none => e
          | some c =>
            if coeffOk c = true then rescaleBuild e.num e.den c else e) = e
      match hpm : polyMonoms e.den (gens0.getD (defaultGens e.den)) with
      | [] => rfl
      | m :: ms =>
        simp only [hpm] at hsel
        show (match polyCoeff e.den (gens0.getD (defaultGens e.den))
            (leadMonomial m ms) with
          | none => e
          | some c =>
            if coeffOk c = true then rescaleBuild e.num e.den c else e) = e
        match hpc : polyCoeff e.den (gens0.getD (defaultGens e.den))
            (leadMonomial m ms) with
        | none => rfl
        | some c =>
          simp only [hpc] at hsel
          by_cases hok : coeffOk c
          · rw [if_pos hok] at hsel
            simp at hsel
          · show (if coeffOk c = true then rescaleBuild e.num e.den c else e) = e
            rw [if_neg hok]

/-- Witness for C7 at `x/3` (constant denominator). -/
theorem claim_C7_witness :
    rescale_expression ⟨[⟨Coeff.rat 1, [1]⟩], [⟨Coeff.rat 3, []⟩]⟩ none none
      = ⟨[⟨Coeff.rat 1, [1]⟩], [⟨Coeff.rat 3, []⟩]⟩ :=
  claim_C7 ⟨[⟨Coeff.rat 1, [1]⟩], [⟨Coeff.rat 3, []⟩]⟩ none none
    (Or.inl (by decide))

/-! ### Equation assembly -/

theorem mapM_of_all_some {α β : Type} (f : α → Option β) (g : α → β) :
    ∀ l : List α, (∀ a ∈ l, f a = some (g a)) → l.mapM f = some (l.map g)
  | [], _ => rfl
  | a :: l, h => by
    rw [List.mapM_cons, h a (List.mem_cons_self a l),
      mapM_of_all_some f g l (fun x hx => h x (List.mem_cons_of_mem a hx))]
    rfl

theorem isSome_mapM {α β : Type} (f : α → Option β) :
    ∀ l : List α, (l.mapM f).isSome = true ↔ ∀ a ∈ l, (f a).isSome = true := by
  intro l
  induction l with
  | nil =>
    exact ⟨fun _ x hx => absurd hx (List.not_mem_nil x), fun _ => rfl⟩
  | cons a l ih =>
    rw [List.mapM_cons]
    constructor
    · intro h x hx
      match hfa : f a, hml : l.mapM f with
      | none, _ => rw [hfa] at h; simp at h
      | some b, none => rw [hfa, hml] at h; simp at h
      | some b, some bs =>
        rcases List.mem_cons.mp hx with rfl | hx
        · rw [hfa]; rfl
        · exact (ih.mp (by rw [hml]; rfl)) x hx
    · intro h
      obtain ⟨b, hb⟩ := Option.isSome_iff_exists.mp (h a (List.mem_cons_self a l))
      obtain ⟨bs, hbs⟩ := Option.isSome_iff_exists.mp
        (ih.mpr (fun x hx => h x (List.mem_cons_of_mem a hx)))
      rw [hb, hbs]
      rfl

theorem isSome_get {M : MatQ} {i j : ℕ} :
    (M.get i j).isSome = true ↔ i < M.rows ∧ j < M.cols := by
  unfold MatQ.get
  by_cases h : i < M.rows ∧ j < M.cols
  · rw [if_pos h]; simpa using h
  · rw [if_neg h]; simpa using h

theorem zip_range_sum {α : Type} [Inhabited α] (h : α → ℚ) :
    ∀ (xs : List α) (g : ℕ → ℚ),
      ((((List.range xs.length).map g).zip xs).map (fun p => p.1 * h p.2)).sum
        = ((List.range xs.length).map
            (fun j => g j * h (xs.getD j default))).sum := by
  intro xs
  induction xs with
  | nil => intro g; rfl
  | cons x xs ih =>
    intro g
    have hr : List.range (x :: xs).length
        = 0 :: (List.range xs.length).map Nat.succ := by
      rw [List.length_cons, List.range_succ_eq_map]
    rw [hr]
    simp only [List.map_cons, List.zip_cons_cons, List.map_map, List.sum_cons,
      List.getD_cons_zero, List.getD_cons_succ, Function.comp_def,
      Nat.succ_eq_add_one]
    rw [ih (fun j => g (j + 1))]

theorem sum_range_ite (m : ℕ → ℚ) :
    ∀ (n i : ℕ), i < n →
      ((List.range n).map (fun j => (if i = j then (1 : ℚ) else 0) * m j)).sum
        = m i := by
  intro n
  induction n with
  | zero => intro i hi; simp at hi
  | succ n ih =>
    intro i hi
    rw [List.range_succ, List.map_append, List.sum_append]
    have htail : (List.map (fun j => (if i = j then (1 : ℚ) else 0) * m j) [n]).sum
        = if i = n then m n else 0 := by
      by_cases hin : i = n
      · simp [hin]
      · simp [hin]
    rw [htail]
    by_cases hin : i = n
    · have hz : ((List.range n).map
          (fun j => (if i = j then (1 : ℚ) else 0) * m j)).sum = 0 := by
        refine List.sum_eq_zero ?_
        intro x hx
        obtain ⟨j, hj, rfl⟩ := List.mem_map.mp hx
        have hij : ¬ i = j := by
          have hjn := List.mem_range.mp hj
          omega
        rw [if_neg hij, zero_mul]
      rw [hz, if_pos hin, hin, zero_add]
    · have hi' : i < n := by omega
      rw [ih i hi', if_neg hin, add_zero]

theorem rowSide_eq (features : List String) (M : MatQ) (i : ℕ)
    (hrow : i < M.rows) (hcol : features.length ≤ M.cols) :
    rowSide features M i = some (fun v =>
      ((List.range features.length).map
        (fun j => M.entry i j * featMon features j v)).sum) := by
  have hmap : (List.range features.length).mapM (fun j => M.get i j)
      = some ((List.range features.length).map (fun j => M.entry i j)) := by
    refine mapM_of_all_some _ _ _ ?_
    intro j hj
    have hjn : j < features.length := List.mem_range.mp hj
    unfold MatQ.get
    rw [if_pos ⟨hrow, lt_of_lt_of_le hjn hcol⟩]
  unfold rowSide
  rw [hmap, Option.map_some']
  refine congrArg some ?_
  funext v
  have hz := zip_range_sum (fun s => consolidate_product (parse_feature s) v)
    features (fun j => M.entry i j)
  simpa [featMon] using hz

theorem isSome_rowSide (features : List String) (M : MatQ) (i : ℕ) :
    (rowSide features M i).isSome = true ↔
      ∀ j < features.length, i < M.rows ∧ j < M.cols := by
  unfold rowSide
  rw [Option.isSome_map', isSome_mapM]
  constructor
  · intro h j hj
    exact isSome_get.mp (h j (List.mem_range.mpr hj))
  · intro h j hj
    exact isSome_get.mpr (h j (List.mem_range.mp hj))

theorem isSome_eqnOfRow (features : List String) (L R : MatQ) (i : ℕ) :
    (eqnOfRow features L R i).isSome = true ↔
      (rowSide features L i).isSome = true ∧
        (rowSide features R i).isSome = true := by
  cases hL : rowSide features L i with
  | none => simp [eqnOfRow, hL]
  | some lhs =>
    cases hR : rowSide features R i with
    | none => simp [eqnOfRow, hL, hR]
    | some rhs => simp [eqnOfRow, hL, hR]

/-- **C8** (amended). Equation assembly over `range(len(features))` fails
(the first out-of-range matrix access raises `IndexError`) exactly when
`len(features)` exceeds a row or column count of `left_coeff` or
`right_coeff`. In particular a dimension mismatch with strictly larger
matrices is not detected: assembly succeeds, silently using the top-left
`len(features) × len(features)` submatrices, so the mismatch is not
batch-fatal as claimed. -/
theorem claim_C8 (features : List String) (L R : MatQ) :
    (generate_symbolic_equations_both_sides features L R).isSome = true ↔
      (features.length ≤ L.rows ∧ features.length ≤ L.cols ∧
       features.length ≤ R.rows ∧ features.length ≤ R.cols) := by
  unfold generate_symbolic_equations_both_sides
  rw [isSome_mapM]
  constructor
  · intro h
    rcases Nat.eq_zero_or_pos features.length with h0 | hpos
    · omega
    · have hmem : features.length - 1 ∈ List.range features.length :=
        List.mem_range.mpr (by omega)
      have hsome := (isSome_eqnOfRow features L R _).mp (h _ hmem)
      have hLs := (isSome_rowSide features L _).mp hsome.1
        (features.length - 1) (by omega)
      have hRs := (isSome_rowSide features R _).mp hsome.2
        (features.length - 1) (by omega)
      omega
  · intro hd i hi
    have hi' : i < features.length := List.mem_range.mp hi
    refine (isSome_eqnOfRow features L R i).mpr ⟨?_, ?_⟩
    · exact (isSome_rowSide features L i).mpr (fun j hj => ⟨by omega, by omega⟩)
    · exact (isSome_rowSide features R i).mpr (fun j hj => ⟨by omega, by omega⟩)

/-- Counterexample to C8 as stated: two features against 3×3 all-ones
matrices is a dimension mismatch, yet assembly succeeds instead of
failing. -/
theorem claim_C8_counterexample :
    (["x0", "x1"] : List String).length ≠ (MatQ.mk 3 3 fun _ _ => 1).rows ∧
    (generate_symbolic_equations_both_sides ["x0", "x1"]
      (MatQ.mk 3 3 fun _ _ => 1) (MatQ.mk 3 3 fun _ _ => 1)).isSome = true := by
  exact ⟨by decide, rfl⟩

/-- **C4**: when the matrices cover the feature list, row `i` of the
assembled equation list is the value function of
`Σ_j L[i,j]·monomial(feature_j) − Σ_j R[i,j]·monomial(feature_j)`, and
with the identity matrix as `left_coeff` that value is
`monomial(feature_i) − Σ_j R[i,j]·monomial(feature_j)`. -/
theorem claim_C4 (features : List String) (L R : MatQ) (i : ℕ)
    (hi : i < features.length)
    (hdim : features.length ≤ L.rows ∧ features.length ≤ L.cols ∧
            features.length ≤ R.rows ∧ features.length ≤ R.cols) :
    (∃ eqs, generate_symbolic_equations_both_sides features L R = some eqs ∧
       eqs.get? i = some (fun v => claimedRow features L.entry R.entry i v)) ∧
    (L = generate_identity_matrix features → ∀ v : String → ℚ,
       claimedRow features L.entry R.entry i v
         = featMon features i v
           - ((List.range features.length).map
               (fun j => R.entry i j * featMon features j v)).sum) := by
  obtain ⟨hLr, hLc, hRr, hRc⟩ := hdim
  have hrow : ∀ k ∈ List.range features.length,
      eqnOfRow features L R k
        = some (fun v => claimedRow features L.entry R.entry k v) := by
    intro k hk
    have hk' : k < features.length := List.mem_range.mp hk
    unfold eqnOfRow
    rw [rowSide_eq features L k (lt_of_lt_of_le hk' hLr) hLc,
        rowSide_eq features R k (lt_of_lt_of_le hk' hRr) hRc]
    rfl
  constructor
  · refine ⟨(List.range features.length).map
      (fun k => fun v => claimedRow features L.entry R.entry k v), ?_, ?_⟩
    · exact mapM_of_all_some _ _ _ hrow
    · rw [List.get?_map, List.get?_range hi]
      rfl
  · intro hL v
    subst hL
    show ((List.range features.length).map
        (fun j => (if i = j then (1 : ℚ) else 0) * featMon features j v)).sum
      - ((List.range features.length).map
          (fun j => R.entry i j * featMon features j v)).sum = _
    rw [sum_range_ite (fun j => featMon features j v) features.length i hi]

/-- Witness for C4: one feature, identity `left_coeff`, all-ones 1×1
`right_coeff`. -/
theorem claim_C4_witness :
    (∃ eqs, generate_symbolic_equations_both_sides ["x0"]
        (generate_identity_matrix ["x0"]) (MatQ.mk 1 1 fun _ _ => 1)
          = some eqs ∧
       eqs.get? 0 = some (fun v =>
         claimedRow ["x0"] (generate_identity_matrix ["x0"]).entry
           (MatQ.mk 1 1 fun _ _ => 1).entry 0 v)) ∧
    (generate_identity_matrix ["x0"] = generate_identity_matrix ["x0"] →
      ∀ v : String → ℚ,
       claimedRow ["x0"] (generate_identity_matrix ["x0"]).entry
           (MatQ.mk 1 1 fun _ _ => 1).entry 0 v
         = featMon ["x0"] 0 v
           - ((List.range (["x0"] : List String).length).map
               (fun j => (MatQ.mk 1 1 fun _ _ => 1).entry 0 j
                 * featMon ["x0"] j v)).sum) :=
  claim_C4 ["x0"] (generate_identity_matrix ["x0"]) (MatQ.mk 1 1 fun _ _ => 1)
    0 (by decide) ⟨by decide, by decide, by decide, by decide⟩

/-! ### Orchestrator invariants -/

theorem processRow_count (target : Option Mon) (gens : Option (List ℕ))
    (tol : ℚ) (st : ModelState) (i : ℕ) (sols : List RatExpr) :
    ((processRow target gens tol st i sols).successful = st.successful + 1 ∧
     (processRow target gens tol st i sols).failed = st.failed) ∨
    ((processRow target gens tol st i sols).successful = st.successful ∧
     (processRow target gens tol st i sols).failed = st.failed + 1) := by
  unfold processRow
  cases sols with
  | nil => exact Or.inr ⟨rfl, rfl⟩
  | cons raw rest =>
    dsimp only
    split_ifs with hempty hzero
    · exact Or.inr ⟨rfl, rfl⟩
    · exact Or.inr ⟨rfl, rfl⟩
    · exact Or.inl ⟨rfl, rfl⟩

theorem runRows_count (target : Option Mon) (gens : Option (List ℕ))
    (tol : ℚ) :
    ∀ (rows : List (List RatExpr)) (i : ℕ) (st : ModelState),
      (runRows target gens tol i st rows).successful
          + (runRows target gens tol i st rows).failed
        = st.successful + st.failed + rows.length := by
  intro rows
  induction rows with
  | nil =>
    intro i st
    show st.successful + st.failed = st.successful + st.failed + List.length []
    rw [List.length_nil]
    omega
  | cons r rs ih =>
    intro i st
    show (runRows target gens tol (i + 1)
            (processRow target gens tol st i r) rs).successful
        + (runRows target gens tol (i + 1)
            (processRow target gens tol st i r) rs).failed
      = st.successful + st.failed + (r :: rs).length
    rw [ih (i + 1) (processRow target gens tol st i r), List.length_cons]
    rcases processRow_count target gens tol st i r with ⟨h1, h2⟩ | ⟨h1, h2⟩ <;>
      rw [h1, h2] <;> omega

/-- **C9**: each equation row increments exactly one of the two counters
(`successful_models` on the success exit, `failed_models` on each of the
three failure exits), so over the whole batch
`successful_models + failed_models = len(eq_list)`. -/
theorem claim_C9 (target : Option Mon) (gens : Option (List ℕ)) (tol : ℚ) :
    (∀ (st : ModelState) (i : ℕ) (sols : List RatExpr),
       ((processRow target gens tol st i sols).successful = st.successful + 1 ∧
        (processRow target gens tol st i sols).failed = st.failed) ∨
       ((processRow target gens tol st i sols).successful = st.successful ∧
        (processRow target gens tol st i sols).failed = st.failed + 1)) ∧
    (∀ eq_list : List (List RatExpr),
       (print_and_store_models target gens tol eq_list).successful
           + (print_and_store_models target gens tol eq_list).failed
         = eq_list.length) := by
  refine ⟨processRow_count target gens tol, ?_⟩
  intro eq_list
  unfold print_and_store_models
  rw [runRows_count target gens tol eq_list 0 initState]
  show 0 + 0 + eq_list.length = eq_list.length
  omega

theorem keysOf_append {α : Type} (l l' : List (ℕ × α)) :
    keysOf (l ++ l') = keysOf l ++ keysOf l' :=
  List.map_append _ _ _

/-- The key-set nesting invariant of the four stage stores. -/
def stageNested (st : ModelState) : Prop :=
  keysOf st.final = keysOf st.cleaned ∧
  keysOf st.cleaned ⊆ keysOf st.rescaled ∧
  keysOf st.rescaled ⊆ keysOf st.raw

theorem processRow_nested (target : Option Mon) (gens : Option (List ℕ))
    (tol : ℚ) (st : ModelState) (i : ℕ) (sols : List RatExpr)
    (h : stageNested st) :
    stageNested (processRow target gens tol st i sols) := by
  obtain ⟨h1, h2, h3⟩ := h
  unfold processRow
  cases sols with
  | nil => exact ⟨h1, h2, h3⟩
  | cons raw rest =>
    dsimp only
    split_ifs with hempty hzero
    · refine ⟨h1, h2, ?_⟩
      refine h3.trans ?_
      rw [keysOf_append]
      exact List.subset_append_left _ _
    · refine ⟨h1, ?_, ?_⟩
      · refine h2.trans ?_
        rw [keysOf_append]
        exact List.subset_append_left _ _
      · rw [keysOf_append, keysOf_append]
        exact List.append_subset.mpr
          ⟨h3.trans (List.subset_append_left _ _),
           List.subset_append_right _ _⟩
    · refine ⟨?_, ?_, ?_⟩
      · rw [keysOf_append, keysOf_append, h1]
        rfl
      · rw [keysOf_append, keysOf_append]
        exact List.append_subset.mpr
          ⟨h2.trans (List.subset_append_left _ _),
           List.subset_append_right _ _⟩
      · rw [keysOf_append, keysOf_append]
        exact List.append_subset.mpr
          ⟨h3.trans (List.subset_append_left _ _),
           List.subset_append_right _ _⟩

theorem runRows_nested (target : Option Mon) (gens : Option (List ℕ))
    (tol : ℚ) :
    ∀ (rows : List (List RatExpr)) (i : ℕ) (st : ModelState),
      stageNested st → stageNested (runRows target gens tol i st rows) := by
  intro rows
  induction rows with
  | nil => intro i st h; exact h
  | cons r rs ih =>
    intro i st h
    exact ih (i + 1) (processRow target gens tol st i r)
      (processRow_nested target gens tol st i r h)

/-- **C10**: the key sets of the four returned stores are nested
(`final = cleaned ⊆ rescaled ⊆ raw`); a row failing the zero-numerator
check is still stored in `raw_models`, and a row whose cleaned numerator
is zero (all terms dropped) is still stored in `raw_models` and
`rescaled_models`, while both are excluded from the later stages. -/
theorem claim_C10 (target : Option Mon) (gens : Option (List ℕ)) (tol : ℚ) :
    (∀ eq_list : List (List RatExpr),
       keysOf (print_and_store_models target gens tol eq_list).final
           = keysOf (print_and_store_models target gens tol eq_list).cleaned ∧
       keysOf (print_and_store_models target gens tol eq_list).cleaned
           ⊆ keysOf (print_and_store_models target gens tol eq_list).rescaled ∧
       keysOf (print_and_store_models target gens tol eq_list).rescaled
           ⊆ keysOf (print_and_store_models target gens tol eq_list).raw) ∧
    (∀ (st : ModelState) (i : ℕ) (r : RatExpr) (rest : List RatExpr),
       (togetherExpand r).num.isEmpty = true →
       processRow target gens tol st i (r :: rest)
         = { st with raw := st.raw ++ [(i, togetherExpand r)],
                     failed := st.failed + 1 }) ∧
    (∀ (st : ModelState) (i : ℕ) (r : RatExpr) (rest : List RatExpr),
       (togetherExpand r).num.isEmpty = false →
       numIsZero (drop_small_terms
           (.rat (rescale_expression (togetherExpand r) target gens)) tol)
         = true →
       processRow target gens tol st i (r :: rest)
         = { st with
               raw := st.raw ++ [(i, togetherExpand r)],
               rescaled := st.rescaled
                 ++ [(i, rescale_expression (togetherExpand r) target gens)],
               failed := st.failed + 1 }) := by
  refine ⟨?_, ?_, ?_⟩
  · intro eq_list
    exact runRows_nested target gens tol eq_list 0 initState
      ⟨rfl, List.nil_subset _, List.nil_subset _⟩
  · intro st i r rest hempty
    unfold processRow
    dsimp only
    rw [if_pos hempty]
  · intro st i r rest hempty hzero
    unfold processRow
    dsimp only
    rw [if_neg (by rw [hempty]; exact Bool.false_ne_true), if_pos hzero]

end SymbolicModel
